import Mathlib

/-!
Verification of the loki-helper collection layer (`lib/collection.js`):
a shallow embedding of the validated-collection operations and the
Initializer protocol, together with proofs of the specified properties.

The underlying LokiJS engine is external to the repository; it is modelled
at the interface the spec assigns to it (§6): `get`, `by`, `insert`,
`update`, `remove`, `addCollection`, `removeCollection`, with the engine
enforcing the declared unique constraints (rejecting an insert/update that
would make two live records share an equal, non-null value at a unique
field, as the LokiJS unique index does).
-/

namespace LokiHelper

/-- JSON-like field values as manipulated by the JS code.  JS `undefined`
is represented by absence (an `Option Value` being `none`), `null` by
`vnull`.  Arrays do not occur as field values in any property checked
here, so the object case is the only nested one. -/
inductive Value where
  | vnull : Value
  | vbool (b : Bool) : Value
  | vnum (n : Int) : Value
  | vstr (s : String) : Value
  | vobj (fields : List (String × Value)) : Value
deriving Repr

mutual

/-- Decidable equality of values (deep equality, as `lodash _.isEqual`). -/
def Value.decEq : (a b : Value) → Decidable (a = b)
  | .vnull, .vnull => .isTrue rfl
  | .vnull, .vbool _ => .isFalse (fun h => Value.noConfusion h)
  | .vnull, .vnum _ => .isFalse (fun h => Value.noConfusion h)
  | .vnull, .vstr _ => .isFalse (fun h => Value.noConfusion h)
  | .vnull, .vobj _ => .isFalse (fun h => Value.noConfusion h)
  | .vbool _, .vnull => .isFalse (fun h => Value.noConfusion h)
  | .vbool a, .vbool b =>
    if h : a = b then .isTrue (by rw [h]) else
      .isFalse (fun hh => by cases hh; exact h rfl)
  | .vbool _, .vnum _ => .isFalse (fun h => Value.noConfusion h)
  | .vbool _, .vstr _ => .isFalse (fun h => Value.noConfusion h)
  | .vbool _, .vobj _ => .isFalse (fun h => Value.noConfusion h)
  | .vnum _, .vnull => .isFalse (fun h => Value.noConfusion h)
  | .vnum _, .vbool _ => .isFalse (fun h => Value.noConfusion h)
  | .vnum a, .vnum b =>
    if h : a = b then .isTrue (by rw [h]) else
      .isFalse (fun hh => by cases hh; exact h rfl)
  | .vnum _, .vstr _ => .isFalse (fun h => Value.noConfusion h)
  | .vnum _, .vobj _ => .isFalse (fun h => Value.noConfusion h)
  | .vstr _, .vnull => .isFalse (fun h => Value.noConfusion h)
  | .vstr _, .vbool _ => .isFalse (fun h => Value.noConfusion h)
  | .vstr _, .vnum _ => .isFalse (fun h => Value.noConfusion h)
  | .vstr a, .vstr b =>
    if h : a = b then .isTrue (by rw [h]) else
      .isFalse (fun hh => by cases hh; exact h rfl)
  | .vstr _, .vobj _ => .isFalse (fun h => Value.noConfusion h)
  | .vobj _, .vnull => .isFalse (fun h => Value.noConfusion h)
  | .vobj _, .vbool _ => .isFalse (fun h => Value.noConfusion h)
  | .vobj _, .vnum _ => .isFalse (fun h => Value.noConfusion h)
  | .vobj _, .vstr _ => .isFalse (fun h => Value.noConfusion h)
  | .vobj a, .vobj b =>
    match Value.decEqFields a b with
    | .isTrue h => .isTrue (by rw [h])
    | .isFalse h => .isFalse (fun hh => by cases hh; exact h rfl)

/-- Decidable equality of field lists. -/
def Value.decEqFields : (a b : List (String × Value)) → Decidable (a = b)
  | [], [] => .isTrue rfl
  | [], _ :: _ => .isFalse (fun h => List.noConfusion h)
  | _ :: _, [] => .isFalse (fun h => List.noConfusion h)
  | (k1, v1) :: r1, (k2, v2) :: r2 =>
    if hk : k1 = k2 then
      match Value.decEq v1 v2 with
      | .isTrue hv =>
        match Value.decEqFields r1 r2 with
        | .isTrue hr => .isTrue (by rw [hk, hv, hr])
        | .isFalse hr => .isFalse (fun hh => by
            injection hh with h1 h2; exact hr h2)
      | .isFalse hv => .isFalse (fun hh => by
          injection hh with h1 h2
          injection h1 with hk' hv'
          exact hv hv')
    else
      .isFalse (fun hh => by
        injection hh with h1 h2
        injection h1 with hk' hv'
        exact hk hk')

end

instance : DecidableEq Value := Value.decEq

mutual

/-- Boolean deep equality of values (as `lodash _.isEqual`); structural,
so that it evaluates by reduction. -/
def Value.beq : Value → Value → Bool
  | .vnull, .vnull => true
  | .vbool a, .vbool b => a == b
  | .vnum a, .vnum b => a == b
  | .vstr a, .vstr b => a == b
  | .vobj a, .vobj b => Value.beqFields a b
  | _, _ => false

/-- Boolean equality of field lists. -/
def Value.beqFields : List (String × Value) → List (String × Value) → Bool
  | [], [] => true
  | (k1, v1) :: r1, (k2, v2) :: r2 =>
    k1 == k2 && Value.beq v1 v2 && Value.beqFields r1 r2
  | _, _ => false

end

theorem Value.beqFields_iff (t : List (String × Value)) :
    ∀ s, (∀ p ∈ t, ∀ b' : Value, (Value.beq p.2 b' = true) ↔ p.2 = b') →
      ((Value.beqFields t s = true) ↔ t = s) := by
  induction t with
  | nil => intro s _; cases s <;> simp [Value.beqFields]
  | cons p r1 ih =>
    intro s H
    obtain ⟨k1, v1⟩ := p
    cases s with
    | nil => simp [Value.beqFields]
    | cons q r2 =>
      obtain ⟨k2, v2⟩ := q
      rw [Value.beqFields]
      simp only [Bool.and_eq_true, beq_iff_eq]
      rw [H (k1, v1) (List.mem_cons_self _ _) v2]
      rw [ih r2 (fun p hp b' => H p (List.mem_cons_of_mem _ hp) b')]
      constructor
      · rintro ⟨⟨h1, h2⟩, h3⟩
        have h2' : v1 = v2 := h2
        rw [h1, h2', h3]
      · intro h
        injection h with h1 h2
        injection h1 with hk hv
        exact ⟨⟨hk, hv⟩, h2⟩

theorem Value.beq_iff_aux :
    ∀ (n : Nat) (a b : Value), sizeOf a ≤ n → ((Value.beq a b = true) ↔ a = b) := by
  intro n
  induction n using Nat.strong_induction_on with
  | _ n IH =>
    intro a b hsize
    cases a with
    | vnull => cases b <;> simp [Value.beq]
    | vbool x => cases b <;> simp [Value.beq]
    | vnum x => cases b <;> simp [Value.beq]
    | vstr x => cases b <;> simp [Value.beq]
    | vobj t =>
      cases b with
      | vnull => simp [Value.beq]
      | vbool y => simp [Value.beq]
      | vnum y => simp [Value.beq]
      | vstr y => simp [Value.beq]
      | vobj s =>
        rw [Value.beq]
        have H : ∀ p ∈ t, ∀ b' : Value, (Value.beq p.2 b' = true) ↔ p.2 = b' := by
          intro p hp b'
          have hlt : sizeOf p.2 < n := by
            have h1 := List.sizeOf_lt_of_mem hp
            obtain ⟨pk, pv⟩ := p
            simp only [Prod.mk.sizeOf_spec] at h1
            have h2 : sizeOf (Value.vobj t) = 1 + sizeOf t := by simp
            simp only []
            omega
          exact IH (sizeOf p.2) hlt p.2 b' le_rfl
        rw [Value.beqFields_iff t s H]
        simp

theorem Value.beq_iff (a b : Value) : (Value.beq a b = true) ↔ a = b :=
  Value.beq_iff_aux (sizeOf a) a b le_rfl

instance : BEq Value := ⟨Value.beq⟩

theorem Value.beq_def (a b : Value) : (a == b) = Value.beq a b := rfl

instance : LawfulBEq Value where
  eq_of_beq h := (Value.beq_iff _ _).mp h
  rfl := (Value.beq_iff _ _).mpr rfl

/-- A record: a JS object, modelled as an association list of fields in
property order (no duplicate keys are ever produced by the operations). -/
abbrev Rec := List (String × Value)

/-- JS property read `r[k]`: `none` models `undefined`. -/
def getField (r : Rec) (k : String) : Option Value :=
  (r.find? (fun p => p.1 == k)).map (fun p => p.2)

/-- JS property write `r[k] = v`: replaces the value in place when the key
exists, appends the property otherwise. -/
def setField : Rec → String → Value → Rec
  | [], k, v => [(k, v)]
  | (k', v') :: rest, k, v =>
    if k' == k then (k, v) :: rest else (k', v') :: setField rest k v

/-- JS truthiness of a defined value (`undefined` is handled at the
`Option` layer by the callers). -/
def truthy : Value → Bool
  | .vnull => false
  | .vbool b => b
  | .vnum n => n != 0
  | .vstr s => s != ""
  | .vobj _ => true

/-- Truthiness of a possibly-undefined value: `undefined` is falsy. -/
def truthyO : Option Value → Bool
  | none => false
  | some v => truthy v

mutual

/-- `lodash _.defaultsDeep(target, source)` on values: the target wins
except that for two objects the source's missing keys are filled in
recursively (source keys absent from the target are appended in order). -/
def defaultsDeepVal : Value → Value → Value
  | Value.vobj t, Value.vobj s =>
      Value.vobj
        (mergeFields t s ++ s.filter (fun q => (t.find? (fun p => p.1 == q.1)).isNone))
  | t, _ => t

/-- The target's fields after a deep-defaults merge: every target field
keeps its key; its value is recursively merged when the source also
carries the key. -/
def mergeFields : List (String × Value) → List (String × Value) → List (String × Value)
  | [], _ => []
  | (k, v) :: rest, s =>
    (k,
      match (s.find? (fun q => q.1 == k)).map (fun q => q.2) with
      | some sv => defaultsDeepVal v sv
      | none => v) :: mergeFields rest s

end

/-- `lodash _.defaultsDeep(target, ...sources)` at record level: sources are
merged into the target left to right. -/
def defaultsDeepRec (t : Rec) (sources : List Rec) : Rec :=
  sources.foldl
    (fun acc s =>
      match defaultsDeepVal (Value.vobj acc) (Value.vobj s) with
      | Value.vobj r => r
      | _ => acc)
    t

/-- Modelled from the spec: `stripLokiProperties` lives in `lib/object.js`,
which is present in the repository only through its unit test; per the
spec's Record Metadata Convention and the test, it removes the two
storage-owned fields `$loki` and `meta` from a record. -/
def stripLokiProperties (r : Rec) : Rec :=
  r.filter (fun p => !(p.1 == "$loki" || p.1 == "meta"))

/-- `lodash _.pick(r, ks)`: the sub-record with the keys of `ks` that are
present on `r`, in the order of `ks`. -/
def pick (r : Rec) (ks : List String) : Rec :=
  ks.filterMap (fun k => (getField r k).map (fun v => (k, v)))

/-- `Object.assign(a, b)`: assigns every field of `b` onto `a`. -/
def objectAssign (a b : Rec) : Rec :=
  b.foldl (fun acc p => setField acc p.1 p.2) a

/-! ### Errors

`lib/error.js` declares two error classes, `ValidationError` and
`ObjectNotFoundError`; errors thrown by the LokiJS engine itself are plain
`Error`s and form a third kind.  An error value carries the constructor
arguments that the code supplies (message, and for duplicate-key errors
the structured `{key, value}` payload; for schema errors the schema's
failure details). -/

inductive ErrName where
  | validationError
  | objectNotFoundError
  | engineError
deriving DecidableEq, Repr

structure Err where
  name : ErrName
  message : String := ""
  key : Option String := none
  value : Option Value := none
  details : Option String := none
deriving DecidableEq, Repr

/-- The error thrown by `validateObjectSchema`: a `ValidationError`
carrying the schema's failure details. -/
def schemaErr (d : String) : Err :=
  { name := .validationError, details := some d }

/-- The error thrown by `validateUniqueProperties`: names the offending
key and value. -/
def dupErr (k : String) (v : Value) : Err :=
  { name := .validationError
    message := "Duplicate key for property"
    key := some k
    value := some v }

def notFoundErr : Err := { name := .objectNotFoundError }

def invalidIDErr : Err := { name := .validationError }

/-! ### The collection engine

Modelled at the interface of spec §6 (the LokiJS engine is an external
collaborator): records live in insertion order, storage IDs are assigned
from a monotone counter, and the engine enforces the declared unique
constraints — an insert or update that would make two live records share
an equal, non-null value at a unique field is rejected and leaves the
collection unchanged. -/

structure Coll where
  uniqueNames : List String
  data : List Rec
  maxId : Nat
deriving DecidableEq, Repr

/-- Two records share a unique value at `f`: the first has a defined,
non-null value there and the second has an equal value.  (The LokiJS
unique index skips `null`/`undefined` values, so those never collide.) -/
def sharesUnique (r1 r2 : Rec) (f : String) : Bool :=
  match getField r1 f with
  | some v => !(v == Value.vnull) && getField r2 f == some v
  | none => false

/-- `r` collides with some record of `dat` at unique field `f`. -/
def collides (dat : List Rec) (r : Rec) (f : String) : Bool :=
  dat.any (fun r2 => sharesUnique r r2 f)

/-- The metadata the engine attaches on insert: a fresh object when the
document carries none, otherwise the document's own object restamped —
either way engine-generated, never the caller's value unchanged. -/
def stampMeta : Option Value → Value
  | some (Value.vobj fs) =>
    Value.vobj (setField (setField fs "revision" (Value.vnum 0)) "created" (Value.vnum 0))
  | _ => Value.vobj [("revision", Value.vnum 0), ("created", Value.vnum 0)]

/-- The record the engine stores for an inserted document: the document
with engine-stamped metadata and the assigned storage ID. -/
def augmentRec (d : Rec) (id : Nat) : Rec :=
  setField (setField d "meta" (stampMeta (getField d "meta")))
    "$loki" (Value.vnum (Int.ofNat id))

/-- Engine `insert` of a single document: rejects a document that already
carries a storage ID, assigns the next ID and fresh metadata, and rejects
the result if it would violate a unique constraint. -/
def engineInsert (c : Coll) (doc : Rec) : Coll × Except Err Rec :=
  if (getField doc "$loki").isSome then
    (c, .error { name := .engineError, message := "document is already in collection" })
  else
    let newRec := augmentRec doc (c.maxId + 1)
    if c.uniqueNames.any (fun f => collides c.data newRec f) then
      (c, .error { name := .engineError, message := "Duplicate key" })
    else
      ({ c with data := c.data ++ [newRec], maxId := c.maxId + 1 }, .ok newRec)

/-- Engine `insert` of a sequence: documents are inserted one by one in
order; the first failure aborts, keeping the documents already inserted
(as LokiJS's array insert does). -/
def insertMany (c : Coll) (docs : List Rec) : Coll × Option Err :=
  match docs with
  | [] => (c, none)
  | d :: rest =>
    match engineInsert c d with
    | (c', .ok _) => insertMany c' rest
    | (c', .error e) => (c', some e)

/-- Engine `get(id)`: the live record with storage ID `id`. -/
def engineGet (c : Coll) (id : Int) : Option Rec :=
  c.data.find? (fun r => getField r "$loki" == some (Value.vnum id))

/-- Engine `by(f, v)`: unique-field lookup. -/
def engineBy (c : Coll) (f : String) (v : Value) : Option Rec :=
  c.data.find? (fun r => getField r f == some v)

/-- Replace the first record satisfying `p` by `doc`; also returns the
remaining records (the data without the replaced one), against which the
unique constraints must be checked. -/
def replaceFirst (p : Rec → Bool) (doc : Rec) : List Rec → Option (List Rec × List Rec)
  | [] => none
  | r :: rest =>
    if p r then some (doc :: rest, rest)
    else
      match replaceFirst p doc rest with
      | some (nd, others) => some (r :: nd, r :: others)
      | none => none

/-- Engine `update(doc)`: `doc` must carry a storage ID resolving to a
live record, which is replaced by `doc`; rejected if the replacement
would violate a unique constraint against the other records. -/
def engineUpdate (c : Coll) (doc : Rec) : Coll × Except Err Rec :=
  match getField doc "$loki" with
  | some (Value.vnum id) =>
    match replaceFirst (fun r => getField r "$loki" == some (Value.vnum id)) doc c.data with
    | some (nd, others) =>
      if c.uniqueNames.any (fun f => collides others doc f) then
        (c, .error { name := .engineError, message := "Duplicate key" })
      else
        ({ c with data := nd }, .ok doc)
    | none => (c, .error { name := .engineError, message := "Trying to update unsynced document" })
  | _ => (c, .error { name := .engineError, message := "Trying to update unsynced document" })

/-- Engine `remove(doc)`: removes the live record with `doc`'s storage ID. -/
def engineRemove (c : Coll) (doc : Rec) : Coll :=
  match getField doc "$loki" with
  | some v => { c with data := c.data.filter (fun r => !(getField r "$loki" == some v)) }
  | none => c

/-- Engine `count()`. -/
def engineCount (c : Coll) : Nat := c.data.length

/-! ### Validated collection operations (`extensionMethods`)

The per-record schema is an opaque validator with the contract
`validate(value) -> {error, value}` (spec §6); it is modelled as a
function returning either failure details or the (possibly coerced or
defaulted) validated value. -/

/-- Opaque per-record schema validator. -/
abbrev RecSchema := Rec → Except String Rec

/-- Opaque collection-level schema validator (applied to the whole
storage-stripped data set at once during rebuild). -/
abbrev CollSchema := List Rec → Except String (List Rec)

/-- The identity-accepting validator, `Joi.any()` — the default for both
schemas in the `Initializer` factory. -/
def anySchemaRec : RecSchema := fun r => .ok r

def anySchemaColl : CollSchema := fun d => .ok d

/-- `getByID(id)`: requires a positive-integer storage ID (`!id ||
lokiID.validate(id).error` throws `ValidationError`), then looks the
record up, throwing `ObjectNotFoundError` when absent.  The argument is
an `Option Value` so that an absent (`undefined`) ID is expressible. -/
def getByID (c : Coll) (id : Option Value) : Except Err Rec :=
  match id with
  | some (Value.vnum n) =>
    if n < 1 then .error invalidIDErr
    else
      match engineGet c n with
      | some doc => .ok doc
      | none => .error notFoundErr
  | _ => .error invalidIDErr

/-- `validateObjectSchema(doc)`: runs the record schema, returning the
validated value or throwing a `ValidationError` with the schema's
details. -/
def validateObjectSchema (S : RecSchema) (doc : Rec) : Except Err Rec :=
  match S doc with
  | .error d => .error (schemaErr d)
  | .ok v => .ok v

/-- The condition under which `validateUniqueProperties` fires for key
`key`: the document's value there is defined and truthy, is not equal to
a truthy value of `existing` at the same key, and some live record
already carries it. -/
def dupTrigger (c : Coll) (doc : Rec) (existing : Option Rec) (key : String) : Bool :=
  match getField doc key with
  | none => false
  | some kv =>
    let equalExisting :=
      match existing with
      | some ex =>
        match getField ex key with
        | some ev => truthy ev && kv == ev
        | none => false
      | none => false
    truthy kv && !equalExisting && (engineBy c key kv).isSome

/-- `validateUniqueProperties(doc, existing?)`: walks the collection's
unique field names in order and throws a `ValidationError` naming the
key and value at the first one whose duplicate check fires; returns
`true` otherwise. -/
def validateUniqueProperties (c : Coll) (doc : Rec) (existing : Option Rec) :
    Except Err Bool :=
  match c.uniqueNames.find? (fun key => dupTrigger c doc existing key) with
  | some key => .error (dupErr key ((getField doc key).getD Value.vnull))
  | none => .ok true

/-- `validateAndInsert(doc)`: schema validation first, then the
uniqueness check (on the original document, with no `existing`), then
engine insert of the schema-validated value.  The first component of the
result is the collection afterwards (unchanged whenever an error is
returned). -/
def validateAndInsert (S : RecSchema) (c : Coll) (doc : Rec) : Coll × Except Err Rec :=
  match validateObjectSchema S doc with
  | .error e => (c, .error e)
  | .ok validated =>
    match validateUniqueProperties c doc none with
    | .error e => (c, .error e)
    | .ok _ => engineInsert c validated

/-- `validateAndReplace(doc)`: fetches the existing record by `doc`'s
storage ID, validates `doc` against the schema, validates uniqueness of
the validated value against the existing record, then updates with the
validated value under the existing record's `$loki` and `meta`
(`Object.assign({}, validated, _.pick(existing, ['$loki', 'meta']))`). -/
def validateAndReplace (S : RecSchema) (c : Coll) (doc : Rec) : Coll × Except Err Rec :=
  match getByID c (getField doc "$loki") with
  | .error e => (c, .error e)
  | .ok existing =>
    match validateObjectSchema S doc with
    | .error e => (c, .error e)
    | .ok validated =>
      match validateUniqueProperties c validated (some existing) with
      | .error e => (c, .error e)
      | .ok _ =>
        let updated := objectAssign validated (pick existing ["$loki", "meta"])
        engineUpdate c updated

/-- The merged record produced by `validateAndPatch`:
`_.defaultsDeep(_.pick(existing, ['$loki', 'meta']), doc, existing)`. -/
def patchMerge (existing doc : Rec) : Rec :=
  defaultsDeepRec (pick existing ["$loki", "meta"]) [doc, existing]

/-- `validateAndPatch(doc)`: fetches the existing record by `doc`'s
storage ID, validates uniqueness of `doc` against it before merging,
merges (`patchMerge`), validates the merged record against the schema —
discarding the schema's returned value — and updates with the raw merged
record. -/
def validateAndPatch (S : RecSchema) (c : Coll) (doc : Rec) : Coll × Except Err Rec :=
  match getByID c (getField doc "$loki") with
  | .error e => (c, .error e)
  | .ok existing =>
    match validateUniqueProperties c doc (some existing) with
    | .error e => (c, .error e)
    | .ok _ =>
      let patched := patchMerge existing doc
      match validateObjectSchema S patched with
      | .error e => (c, .error e)
      | .ok _ => engineUpdate c patched

/-- `upsert(doc)`: when `doc` carries a truthy storage ID that resolves
to a live record, a raw engine update; otherwise an engine insert of the
storage-stripped document. -/
def upsert (c : Coll) (doc : Rec) : Coll × Except Err Rec :=
  match getField doc "$loki" with
  | some (Value.vnum id) =>
    if id != 0 && (engineGet c id).isSome then engineUpdate c doc
    else engineInsert c (stripLokiProperties doc)
  | _ => engineInsert c (stripLokiProperties doc)

/-- `removeByID(id)`: fetches via `getByID` (propagating its errors),
removes the record, and returns its captured value. -/
def removeByID (c : Coll) (id : Option Value) : Coll × Except Err Rec :=
  match getByID c id with
  | .error e => (c, .error e)
  | .ok doc => (engineRemove c doc, .ok doc)

/-! ### Constraint introspection -/

/-- `valueToArray`: wrap a non-array in a one-element array. -/
inductive UKInput where
  | single (v : Value)
  | list (vs : List Value)

def valueToArray : UKInput → List Value
  | .single v => [v]
  | .list vs => vs

/-- `hasUniqueProperties(collection, uniqueKeys)`:
`_.difference(keys, collection.uniqueNames).length === 0`, i.e. every
requested key is among the enforced unique names. -/
def hasUniqueProperties (c : Coll) (uniqueKeys : List String) : Bool :=
  uniqueKeys.all (fun k => c.uniqueNames.contains k)

/-! ### Database (external collaborator, spec §6) -/

/-- A database: named collections in creation order. -/
abbrev DB := List (String × Coll)

def getCollection (db : DB) (n : String) : Option Coll :=
  (db.find? (fun p => p.1 == n)).map (fun p => p.2)

def addCollection (db : DB) (n : String) (unique : List String) : DB :=
  db ++ [(n, { uniqueNames := unique, data := [], maxId := 0 })]

def removeCollection (db : DB) (n : String) : DB :=
  db.eraseP (fun p => p.1 == n)

def setCollection (db : DB) (n : String) (c : Coll) : DB :=
  db.map (fun p => if p.1 == n then (n, c) else p)

/-! ### The Initializer -/

/-- The Initializer configuration (`members` in the factory).  The four
lifecycle hooks default to no-ops (they only emit debug output in the
source) and are omitted. -/
structure Initr where
  collectionName : String
  uniqueKeys : List String
  collectionSchema : CollSchema
  objectSchema : RecSchema

/-- A valid unique-keys item per `Schema.uniqueKeys`
(`Joi.string().min(1)`): a string of length at least 1. -/
def validKey : Value → Bool
  | .vstr s => s.length ≥ 1
  | _ => false

/-- Deep-equality duplicate-freeness, as Joi's `.unique()` checks. -/
def nodupValues : List Value → Bool
  | [] => true
  | v :: rest => !rest.contains v && nodupValues rest

/-- The `Initializer` factory: validates the unique-keys input against
`Schema.uniqueKeys` (an array of non-empty strings with no duplicates,
a bare value first being wrapped by `valueToArray`), throwing
`ValidationError('invalid uniqueKeys')` on failure, and otherwise
returns the configuration members.  The factory takes no database state:
construction performs no database access by construction. -/
def mkInitializer (collectionName : String) (input : UKInput)
    (collectionSchema : CollSchema := anySchemaColl)
    (objectSchema : RecSchema := anySchemaRec) : Except Err Initr :=
  let arr := valueToArray input
  if arr.all validKey && nodupValues arr then
    .ok
      { collectionName
        uniqueKeys := arr.filterMap (fun v => match v with | .vstr s => some s | _ => none)
        collectionSchema
        objectSchema }
  else
    .error { name := .validationError, message := "invalid uniqueKeys" }

/-- `shouldRebuild()`: true iff the collection is absent or fails
`hasUniqueProperties` against the configured unique keys. -/
def shouldRebuild (I : Initr) (db : DB) : Bool :=
  match getCollection db I.collectionName with
  | some c => !hasUniqueProperties c I.uniqueKeys
  | none => true

/-- `create()`: adds a fresh collection configured with exactly the
declared unique keys. -/
def create (I : Initr) (db : DB) : DB :=
  addCollection db I.collectionName I.uniqueKeys

/-- `rebuild()`: when the collection is absent, delegates to `create`;
otherwise validates the storage-stripped data against the collection
schema — throwing `ValidationError` with the database untouched on
failure — and only then removes the collection, recreates it, and
re-inserts the validated data in order.  The result pairs the database
afterwards with the thrown error, if any (an engine failure during the
re-insert also surfaces, leaving the partially rebuilt collection, as in
the source where the exception propagates after the destructive step). -/
def rebuild (I : Initr) (db : DB) : DB × Option Err :=
  match getCollection db I.collectionName with
  | none => (create I db, none)
  | some c =>
    match I.collectionSchema (c.data.map stripLokiProperties) with
    | .error _ =>
      (db, some { name := .validationError
                  message := "unable to rebuild " ++ I.collectionName ++
                    " collection: invalid existing data" })
    | .ok validatedData =>
      let db2 := create I (removeCollection db I.collectionName)
      match getCollection db2 I.collectionName with
      | some newC =>
        let (newC', err) := insertMany newC validatedData
        (setCollection db2 I.collectionName newC', err)
      | none => (db2, some { name := .engineError, message := "collection not found" })

/-! ## Basic lemmas about record field access -/

theorem getField_cons (k' : String) (v' : Value) (r : Rec) (k : String) :
    getField ((k', v') :: r) k = if k' == k then some v' else getField r k := by
  by_cases h : k' == k <;> simp [getField, List.find?_cons, h]

theorem getField_append (a b : Rec) (k : String) :
    getField (a ++ b) k =
      match getField a k with
      | some v => some v
      | none => getField b k := by
  induction a with
  | nil => simp [getField]
  | cons p rest ih =>
    obtain ⟨k', v'⟩ := p
    by_cases h : k' == k <;> simp [getField_cons, h, ih]

theorem getField_setField (r : Rec) (k : String) (v : Value) (k' : String) :
    getField (setField r k v) k' = if k == k' then some v else getField r k' := by
  induction r with
  | nil =>
    by_cases h : k == k' <;> simp [setField, getField_cons, h]
  | cons p rest ih =>
    obtain ⟨k0, v0⟩ := p
    by_cases h0 : k0 == k
    · have hk0 : k0 = k := by simpa using h0
      subst hk0
      by_cases h : k0 == k' <;> simp [setField, getField_cons, h]
    · by_cases h : k0 == k'
      · have hk0 : k0 = k' := by simpa using h
        subst hk0
        have hne : ¬(k == k0) := by
          intro hc
          exact h0 (by simpa using (by simpa using hc : k = k0).symm)
        simp [setField, h0, getField_cons, hne]
      · simp [setField, h0, getField_cons, h, ih]

theorem getField_pick (r : Rec) (ks : List String) (k : String) :
    getField (pick r ks) k =
      if k ∈ ks then getField r k else none := by
  induction ks with
  | nil => simp [pick, getField]
  | cons k0 rest ih =>
    by_cases h0 : k0 = k
    · subst h0
      cases hr : getField r k0 with
      | none =>
        simp only [pick, List.filterMap_cons, hr, Option.map_none']
        rw [show List.filterMap
            (fun k => Option.map (fun v => (k, v)) (getField r k)) rest = pick r rest from rfl]
        simp [ih, hr]
      | some v =>
        simp only [pick, List.filterMap_cons, hr, Option.map_some']
        simp [getField_cons]
    · cases hr : getField r k0 with
      | none =>
        simp only [pick, List.filterMap_cons, hr, Option.map_none']
        rw [show List.filterMap
            (fun k => Option.map (fun v => (k, v)) (getField r k)) rest = pick r rest from rfl]
        rw [ih]
        have hks : ¬(k = k0) := fun h => h0 h.symm
        simp [hks]
      | some v =>
        simp only [pick, List.filterMap_cons, hr, Option.map_some']
        have hne : ¬(k0 == k) = true := by simpa using h0
        simp only [getField_cons, hne, if_neg]
        rw [show List.filterMap
            (fun k => Option.map (fun v => (k, v)) (getField r k)) rest = pick r rest from rfl]
        rw [ih]
        have hks : ¬(k = k0) := fun h => h0 h.symm
        simp [hks]

/-! ## Lemmas about the deep-defaults merge -/

/-- One deep-defaults step at record level: the fields of
`defaultsDeepVal (vobj a) (vobj s)`. -/
def mergeStep (a s : Rec) : Rec :=
  mergeFields a s ++ s.filter (fun q => (a.find? (fun p => p.1 == q.1)).isNone)

theorem defaultsDeepVal_vobj (a s : List (String × Value)) :
    defaultsDeepVal (Value.vobj a) (Value.vobj s) = Value.vobj (mergeStep a s) := by
  rw [defaultsDeepVal, mergeStep]

theorem defaultsDeepRec_two (t d e : Rec) :
    defaultsDeepRec t [d, e] = mergeStep (mergeStep t d) e := by
  simp [defaultsDeepRec, defaultsDeepVal_vobj]

theorem getField_mergeFields (t s : Rec) (k : String) :
    getField (mergeFields t s) k =
      (getField t k).map (fun tv =>
        match getField s k with
        | some sv => defaultsDeepVal tv sv
        | none => tv) := by
  induction t with
  | nil => simp [mergeFields, getField]
  | cons p rest ih =>
    obtain ⟨k0, v0⟩ := p
    rw [mergeFields]
    by_cases h : k0 == k
    · have hk : k0 = k := by simpa using h
      subst hk
      simp only [getField_cons, h, if_pos]
      rfl
    · simp only [getField_cons, h, if_neg, ih]
      simp [h]

theorem getField_filter_of_absent (t s : Rec) (k : String)
    (h : getField t k = none) :
    getField (s.filter (fun q => (t.find? (fun p => p.1 == q.1)).isNone)) k
      = getField s k := by
  have hfind : t.find? (fun p => p.1 == k) = none := by
    simpa [getField] using h
  induction s with
  | nil => rfl
  | cons q rest ih =>
    obtain ⟨kq, vq⟩ := q
    by_cases hq : kq == k
    · have hk : kq = k := by simpa using hq
      subst hk
      simp [List.filter_cons, hfind, getField_cons]
    · by_cases hkeep : (t.find? (fun p => p.1 == kq)).isNone
      · simp [List.filter_cons, hkeep, getField_cons, hq, ih]
      · simp [List.filter_cons, hkeep, getField_cons, hq, ih]

theorem getField_filter_of_present (t s : Rec) (k : String) (tv : Value)
    (h : getField t k = some tv) :
    getField (s.filter (fun q => (t.find? (fun p => p.1 == q.1)).isNone)) k
      = none := by
  have hfind : ¬(t.find? (fun p => p.1 == k)).isNone := by
    simp only [getField] at h
    rcases Option.map_eq_some'.mp h with ⟨p, hp, _⟩
    simp [hp]
  induction s with
  | nil => rfl
  | cons q rest ih =>
    obtain ⟨kq, vq⟩ := q
    by_cases hq : kq == k
    · have hk : kq = k := by simpa using hq
      subst hk
      simp [List.filter_cons, hfind, ih]
    · by_cases hkeep : (t.find? (fun p => p.1 == kq)).isNone
      · simp [List.filter_cons, hkeep, getField_cons, hq, ih]
      · simp [List.filter_cons, hkeep, getField_cons, hq, ih]

/-- Field lookup through one deep-defaults step: the target's value wins
(recursively merged when the source also has the key); source-only keys
come through. -/
theorem getField_mergeStep (a s : Rec) (k : String) :
    getField (mergeStep a s) k =
      match getField a k with
      | some av =>
        some (match getField s k with
              | some sv => defaultsDeepVal av sv
              | none => av)
      | none => getField s k := by
  rw [mergeStep, getField_append, getField_mergeFields]
  cases ha : getField a k with
  | none => simp [getField_filter_of_absent a s k ha]
  | some av => simp

mutual

/-- JS objects carry each key at most once; the association-list model
can express duplicate keys, so lemmas about re-merging state this
well-formedness explicitly.  It holds recursively. -/
def nodupKeysV : Value → Bool
  | .vobj fs => nodupKeysF fs
  | _ => true

def nodupKeysF : List (String × Value) → Bool
  | [] => true
  | (k, v) :: rest =>
    !(rest.any (fun p => p.1 == k)) && nodupKeysV v && nodupKeysF rest

end

theorem nodupKeysF_mem {t : List (String × Value)} (h : nodupKeysF t = true)
    {p : String × Value} (hp : p ∈ t) : nodupKeysV p.2 = true := by
  induction t with
  | nil => cases hp
  | cons q rest ih =>
    obtain ⟨kq, vq⟩ := q
    rw [nodupKeysF] at h
    simp only [Bool.and_eq_true] at h
    rcases List.mem_cons.mp hp with hh | hh
    · subst hh; exact h.1.2
    · exact ih h.2 hh

theorem defaultsDeepVal_vnull (v : Value) : defaultsDeepVal v Value.vnull = v := by
  cases v <;> simp [defaultsDeepVal]

theorem mergeFields_keys (t s : Rec) :
    (mergeFields t s).map Prod.fst = t.map Prod.fst := by
  induction t with
  | nil => simp [mergeFields]
  | cons p rest ih =>
    obtain ⟨k, v⟩ := p
    rw [mergeFields]
    simpa using ih

theorem mergeFields_append (A B s : Rec) :
    mergeFields (A ++ B) s = mergeFields A s ++ mergeFields B s := by
  induction A with
  | nil => simp [mergeFields]
  | cons p rest ih =>
    obtain ⟨k, v⟩ := p
    rw [List.cons_append, mergeFields, mergeFields, ih]
    rfl

theorem mergeFields_congr (A s1 s2 : Rec)
    (h : ∀ p ∈ A, s1.find? (fun q => q.1 == p.1) = s2.find? (fun q => q.1 == p.1)) :
    mergeFields A s1 = mergeFields A s2 := by
  induction A with
  | nil => rw [mergeFields, mergeFields]
  | cons p rest ih =>
    obtain ⟨k, v⟩ := p
    rw [mergeFields, mergeFields]
    rw [h (k, v) (List.mem_cons_self _ _), ih (fun p hp => h p (List.mem_cons_of_mem _ hp))]

theorem mergeFields_of_absent (A s : Rec)
    (h : ∀ p ∈ A, s.find? (fun q => q.1 == p.1) = none) :
    mergeFields A s = A := by
  induction A with
  | nil => rw [mergeFields]
  | cons p rest ih =>
    obtain ⟨k, v⟩ := p
    rw [mergeFields]
    rw [h (k, v) (List.mem_cons_self _ _)]
    simp only [Option.map_none']
    rw [ih (fun p hp => h p (List.mem_cons_of_mem _ hp))]

theorem filter_keys_covered (t X : Rec)
    (h : ∀ q ∈ t, ∃ p ∈ X, p.1 == q.1) :
    t.filter (fun q => (X.find? (fun p => p.1 == q.1)).isNone) = [] := by
  rw [List.filter_eq_nil_iff]
  intro q hq
  rcases h q hq with ⟨p, hp, hpq⟩
  have : (X.find? (fun p => p.1 == q.1)).isSome := by
    rw [List.find?_isSome]
    exact ⟨p, hp, hpq⟩
  simp only [Bool.not_eq_true, Option.isNone_eq_false_iff]
  exact this

theorem mergeFields_absorb_left (t : Rec) :
    ∀ s : Rec, nodupKeysF t = true →
      (∀ p ∈ t, ∀ b' : Value,
        defaultsDeepVal (defaultsDeepVal p.2 b') p.2 = defaultsDeepVal p.2 b') →
      mergeFields (mergeFields t s) t = mergeFields t s := by
  induction t with
  | nil => intro s _ _; rw [mergeFields, mergeFields]
  | cons p rest ih =>
    intro s hnd H
    obtain ⟨k0, v0⟩ := p
    rw [nodupKeysF] at hnd
    simp only [Bool.and_eq_true, Bool.not_eq_true'] at hnd
    obtain ⟨⟨hk0, _⟩, hndr⟩ := hnd
    rw [mergeFields, mergeFields]
    have hhead : ((k0, v0) :: rest).find? (fun q => q.1 == k0) = some (k0, v0) := by
      simp [List.find?_cons]
    rw [hhead]
    have hW :
        (match (((s.find? (fun q => q.1 == k0)).map (fun q => q.2)) :
              Option Value) with
          | some sv => defaultsDeepVal v0 sv
          | none => v0) =
          (match ((some (k0, v0)).map (fun q : String × Value => q.2)) with
            | some tv =>
              defaultsDeepVal
                (match (((s.find? (fun q => q.1 == k0)).map (fun q => q.2)) :
                    Option Value) with
                  | some sv => defaultsDeepVal v0 sv
                  | none => v0) tv
            | none =>
              (match (((s.find? (fun q => q.1 == k0)).map (fun q => q.2)) :
                  Option Value) with
                | some sv => defaultsDeepVal v0 sv
                | none => v0)) := by
      cases hs : ((s.find? (fun q => q.1 == k0)).map (fun q => q.2) : Option Value) with
      | some sv =>
        simpa using (H (k0, v0) (List.mem_cons_self _ _) sv).symm
      | none =>
        have h1 := H (k0, v0) (List.mem_cons_self _ _) Value.vnull
        rw [defaultsDeepVal_vnull] at h1
        simpa using h1.symm
    rw [← hW]
    have htail :
        mergeFields (mergeFields rest s) ((k0, v0) :: rest) = mergeFields rest s := by
      have hcongr :
          mergeFields (mergeFields rest s) ((k0, v0) :: rest)
            = mergeFields (mergeFields rest s) rest := by
        apply mergeFields_congr
        intro p hp
        have hkp : p.1 ∈ rest.map Prod.fst := by
          have := List.mem_map_of_mem Prod.fst hp
          rwa [mergeFields_keys] at this
        rcases List.mem_map.mp hkp with ⟨p', hp', hp'k⟩
        have hne : ¬(k0 == p.1) = true := by
          intro hc
          have hpk0 : p.1 = k0 := (eq_of_beq hc).symm
          have hany : rest.any (fun p => p.1 == k0) = true :=
            List.any_eq_true.mpr ⟨p', hp', by rw [hp'k, hpk0]; simp⟩
          rw [hk0] at hany
          cases hany
        simp [List.find?_cons, hne]
      rw [hcongr]
      exact ih s hndr (fun p hp b' => H p (List.mem_cons_of_mem _ hp) b')
    rw [htail]

theorem mergeStep_absorb (t s : Rec) (hnd : nodupKeysF t = true)
    (H : ∀ p ∈ t, ∀ b' : Value,
      defaultsDeepVal (defaultsDeepVal p.2 b') p.2 = defaultsDeepVal p.2 b') :
    mergeStep (mergeStep t s) t = mergeStep t s := by
  rw [mergeStep, mergeStep]
  have hfilter :
      t.filter (fun q =>
        ((mergeFields t s ++
            s.filter (fun q => (t.find? (fun p => p.1 == q.1)).isNone)).find?
          (fun p => p.1 == q.1)).isNone) = [] := by
    apply filter_keys_covered
    intro q hq
    have hkq : q.1 ∈ (mergeFields t s).map Prod.fst := by
      rw [mergeFields_keys]
      exact List.mem_map_of_mem Prod.fst hq
    rcases List.mem_map.mp hkq with ⟨p, hp, hpk⟩
    exact ⟨p, List.mem_append_left _ hp, by rw [hpk]; simp⟩
  rw [hfilter, List.append_nil, mergeFields_append]
  rw [mergeFields_absorb_left t s hnd H]
  have hextras :
      mergeFields (s.filter (fun q => (t.find? (fun p => p.1 == q.1)).isNone)) t
        = s.filter (fun q => (t.find? (fun p => p.1 == q.1)).isNone) := by
    apply mergeFields_of_absent
    intro p hp
    have := List.of_mem_filter hp
    simpa [Option.isNone_iff_eq_none] using this
  rw [hextras]

/-- Re-merging the original target into an already deep-merged value
changes nothing: `defaultsDeep(defaultsDeep(a, b), a) = defaultsDeep(a, b)`
for a well-formed (duplicate-key-free) target `a`.  This mirrors the
aliasing in the JS code, where the second merge walks the very objects
the first merge produced. -/
theorem defaultsDeepVal_absorb_aux :
    ∀ (n : Nat) (a b : Value), sizeOf a ≤ n → nodupKeysV a = true →
      defaultsDeepVal (defaultsDeepVal a b) a = defaultsDeepVal a b := by
  intro n
  induction n using Nat.strong_induction_on with
  | _ n IH =>
    intro a b hsize hnd
    match a with
    | .vnull => cases b <;> simp [defaultsDeepVal]
    | .vbool x => cases b <;> simp [defaultsDeepVal]
    | .vnum x => cases b <;> simp [defaultsDeepVal]
    | .vstr x => cases b <;> simp [defaultsDeepVal]
    | .vobj t =>
      rw [nodupKeysV] at hnd
      have H : ∀ p ∈ t, ∀ b' : Value,
          defaultsDeepVal (defaultsDeepVal p.2 b') p.2 = defaultsDeepVal p.2 b' := by
        intro p hp b'
        have hlt : sizeOf p.2 < n := by
          have h1 := List.sizeOf_lt_of_mem hp
          obtain ⟨pk, pv⟩ := p
          simp only [Prod.mk.sizeOf_spec] at h1
          have h2 : sizeOf (Value.vobj t) = 1 + sizeOf t := by simp
          simp only []
          omega
        exact IH (sizeOf p.2) hlt p.2 b' le_rfl (nodupKeysF_mem hnd hp)
      match b with
      | .vnull =>
        rw [show defaultsDeepVal (Value.vobj t) Value.vnull = Value.vobj t from
          defaultsDeepVal_vnull _]
        rw [defaultsDeepVal_vobj]
        have hms : mergeStep t t = t := by
          have h1 := mergeStep_absorb t ([] : Rec) hnd H
          have h2 : mergeStep t ([] : Rec) = t := by
            rw [mergeStep]
            rw [mergeFields_of_absent t [] (fun p _ => rfl)]
            simp
          rwa [h2] at h1
        rw [hms]
      | .vbool x =>
        have hb : defaultsDeepVal (Value.vobj t) (Value.vbool x) = Value.vobj t := by
          simp [defaultsDeepVal]
        rw [hb, defaultsDeepVal_vobj]
        have h1 := mergeStep_absorb t ([] : Rec) hnd H
        have h2 : mergeStep t ([] : Rec) = t := by
          rw [mergeStep]
          rw [mergeFields_of_absent t [] (fun p _ => rfl)]
          simp
        rw [h2] at h1
        rw [h1]
      | .vnum x =>
        have hb : defaultsDeepVal (Value.vobj t) (Value.vnum x) = Value.vobj t := by
          simp [defaultsDeepVal]
        rw [hb, defaultsDeepVal_vobj]
        have h1 := mergeStep_absorb t ([] : Rec) hnd H
        have h2 : mergeStep t ([] : Rec) = t := by
          rw [mergeStep]
          rw [mergeFields_of_absent t [] (fun p _ => rfl)]
          simp
        rw [h2] at h1
        rw [h1]
      | .vstr x =>
        have hb : defaultsDeepVal (Value.vobj t) (Value.vstr x) = Value.vobj t := by
          simp [defaultsDeepVal]
        rw [hb, defaultsDeepVal_vobj]
        have h1 := mergeStep_absorb t ([] : Rec) hnd H
        have h2 : mergeStep t ([] : Rec) = t := by
          rw [mergeStep]
          rw [mergeFields_of_absent t [] (fun p _ => rfl)]
          simp
        rw [h2] at h1
        rw [h1]
      | .vobj s =>
        rw [defaultsDeepVal_vobj, defaultsDeepVal_vobj]
        rw [mergeStep_absorb t s hnd H]

/-- The absorption law at top level. -/
theorem defaultsDeepVal_absorb (a b : Value) (hnd : nodupKeysV a = true) :
    defaultsDeepVal (defaultsDeepVal a b) a = defaultsDeepVal a b :=
  defaultsDeepVal_absorb_aux (sizeOf a) a b le_rfl hnd

/-- Deep-defaults merging a well-formed value with itself is the
identity. -/
theorem defaultsDeepVal_self (a : Value) (hnd : nodupKeysV a = true) :
    defaultsDeepVal a a = a := by
  have h := defaultsDeepVal_absorb a Value.vnull hnd
  rwa [defaultsDeepVal_vnull] at h

/-! ## Lemmas about storage-field stripping -/

theorem getField_filter_keypred (pr : String → Bool) (r : Rec) (k : String) :
    getField (r.filter (fun p => pr p.1)) k =
      if pr k then getField r k else none := by
  induction r with
  | nil => by_cases h : pr k <;> simp [getField, h]
  | cons p rest ih =>
    obtain ⟨kp, vp⟩ := p
    by_cases hpk : (kp == k) = true
    · have hkk : kp = k := eq_of_beq hpk
      subst hkk
      by_cases hpr : pr kp = true
      · simp [List.filter_cons, hpr, getField_cons]
      · simp only [Bool.not_eq_true] at hpr
        simp [List.filter_cons, hpr, ih]
    · by_cases hpr : pr kp = true
      · simp [List.filter_cons, hpr, getField_cons, hpk, ih]
      · simp only [Bool.not_eq_true] at hpr
        simp [List.filter_cons, hpr, ih, getField_cons, hpk]

theorem filter_setField_keypred (pr : String → Bool) (r : Rec) (k : String)
    (v : Value) (hk : pr k = false) :
    (setField r k v).filter (fun p => pr p.1) = r.filter (fun p => pr p.1) := by
  induction r with
  | nil => simp [setField, List.filter_cons, hk]
  | cons p rest ih =>
    obtain ⟨kp, vp⟩ := p
    by_cases hpk : (kp == k) = true
    · have hkk : kp = k := eq_of_beq hpk
      subst hkk
      simp [setField, List.filter_cons, hk]
    · by_cases hpr : pr kp = true
      · simp [setField, hpk, List.filter_cons, hpr, ih]
      · simp only [Bool.not_eq_true] at hpr
        simp [setField, hpk, List.filter_cons, hpr, ih]

/-- The key predicate of `stripLokiProperties`. -/
def keepKey (k : String) : Bool := !(k == "$loki" || k == "meta")

theorem strip_eq_filter (r : Rec) :
    stripLokiProperties r = r.filter (fun p => keepKey p.1) := rfl

theorem getField_strip (r : Rec) (k : String) :
    getField (stripLokiProperties r) k =
      if keepKey k then getField r k else none := by
  rw [strip_eq_filter]
  exact getField_filter_keypred keepKey r k

theorem getField_strip_loki (r : Rec) :
    getField (stripLokiProperties r) "$loki" = none := by
  rw [getField_strip]; rfl

theorem getField_strip_meta (r : Rec) :
    getField (stripLokiProperties r) "meta" = none := by
  rw [getField_strip]; rfl

theorem getField_strip_other (r : Rec) (k : String) (hk : keepKey k = true) :
    getField (stripLokiProperties r) k = getField r k := by
  rw [getField_strip, if_pos hk]

theorem strip_setField_storage (r : Rec) (k : String) (v : Value)
    (hk : keepKey k = false) :
    stripLokiProperties (setField r k v) = stripLokiProperties r := by
  rw [strip_eq_filter, strip_eq_filter]
  exact filter_setField_keypred keepKey r k v hk

theorem strip_strip (r : Rec) :
    stripLokiProperties (stripLokiProperties r) = stripLokiProperties r := by
  simp only [strip_eq_filter, List.filter_filter]
  apply List.filter_congr
  intro p _
  cases h : keepKey p.1 <;> simp [h]

/-! ## Field characterization of the patch merge -/

theorem patchMerge_eq (ex doc : Rec) :
    patchMerge ex doc = mergeStep (mergeStep (pick ex ["$loki", "meta"]) doc) ex := by
  rw [patchMerge, defaultsDeepRec_two]

/-- Fields other than the storage-owned two: the patch's value wins,
deep-merged with the existing value when both are present. -/
theorem getField_patchMerge_other (ex doc : Rec) (k : String)
    (h1 : k ≠ "$loki") (h2 : k ≠ "meta") :
    getField (patchMerge ex doc) k =
      match getField doc k, getField ex k with
      | some dv, some ev => some (defaultsDeepVal dv ev)
      | some dv, none => some dv
      | none, o => o := by
  rw [patchMerge_eq, getField_mergeStep, getField_mergeStep, getField_pick]
  have : ¬(k ∈ ["$loki", "meta"]) := by simp [h1, h2]
  simp only [this, if_false]
  cases hd : getField doc k <;> cases he : getField ex k <;> simp

/-- The storage ID is protected: with the existing record's `$loki` a
number (as engine records always have), the merged record keeps it. -/
theorem getField_patchMerge_loki (ex doc : Rec) (i : Int)
    (hl : getField ex "$loki" = some (Value.vnum i)) :
    getField (patchMerge ex doc) "$loki" = some (Value.vnum i) := by
  rw [patchMerge_eq, getField_mergeStep, getField_mergeStep, getField_pick]
  have hmem : "$loki" ∈ ["$loki", "meta"] := by simp
  simp only [hmem, if_true, hl]
  have hddv : ∀ x : Value, defaultsDeepVal (Value.vnum i) x = Value.vnum i := by
    intro x; cases x <;> simp [defaultsDeepVal]
  cases hd : getField doc "$loki" <;> simp [hddv, hl]

/-- The metadata after a patch: the existing metadata deep-extended by
the patch's metadata (in particular unchanged when the patch supplies
none). -/
theorem getField_patchMerge_meta (ex doc : Rec) (mv : Value)
    (hm : getField ex "meta" = some mv) (hnd : nodupKeysV mv = true) :
    getField (patchMerge ex doc) "meta" =
      some (match getField doc "meta" with
            | some dmv => defaultsDeepVal mv dmv
            | none => mv) := by
  rw [patchMerge_eq, getField_mergeStep, getField_mergeStep, getField_pick]
  have hmem : "meta" ∈ ["$loki", "meta"] := by simp
  simp only [hmem, if_true, hm]
  cases hd : getField doc "meta" with
  | none => simp [hm, defaultsDeepVal_self mv hnd]
  | some dmv => simp [hm, defaultsDeepVal_absorb mv dmv hnd]

/-! ## Helper lemmas about the operations -/

theorem getField_objectAssign_not_mem (a b : Rec) (k : String)
    (h : ∀ p ∈ b, (p.1 == k) = false) :
    getField (objectAssign a b) k = getField a k := by
  induction b generalizing a with
  | nil => rfl
  | cons p rest ih =>
    obtain ⟨kp, vp⟩ := p
    rw [show objectAssign a ((kp, vp) :: rest) = objectAssign (setField a kp vp) rest
      from rfl]
    rw [ih (setField a kp vp) (fun p hp => h p (List.mem_cons_of_mem _ hp))]
    rw [getField_setField]
    have hne := h (kp, vp) (List.mem_cons_self _ _)
    simp only at hne
    simp [hne]

theorem mem_pick (r : Rec) (ks : List String) (p : String × Value)
    (hp : p ∈ pick r ks) : p.1 ∈ ks := by
  rw [pick] at hp
  rcases List.mem_filterMap.mp hp with ⟨k0, hk0, hmap⟩
  cases hv : getField r k0 with
  | none => rw [hv] at hmap; cases hmap
  | some v =>
    rw [hv] at hmap
    simp only [Option.map_some'] at hmap
    cases hmap
    exact hk0

/-- A record fetched through `engineGet` carries the looked-up storage
ID. -/
theorem engineGet_loki (c : Coll) (id : Int) (ex : Rec)
    (h : engineGet c id = some ex) :
    getField ex "$loki" = some (Value.vnum id) := by
  rw [engineGet] at h
  have hpred := List.find?_some h
  exact eq_of_beq hpred

theorem getByID_ok_of (c : Coll) (id : Int) (ex : Rec) (hid : 1 ≤ id)
    (hex : engineGet c id = some ex) :
    getByID c (some (Value.vnum id)) = .ok ex := by
  rw [getByID]
  rw [if_neg (by omega), hex]

/-- A successful patch stores exactly the deep-defaults merge of the
fetched record and the input. -/
theorem validateAndPatch_ok (S : RecSchema) (c : Coll) (doc : Rec)
    (c' : Coll) (r : Rec) (h : validateAndPatch S c doc = (c', .ok r)) :
    ∃ ex, getByID c (getField doc "$loki") = .ok ex ∧ r = patchMerge ex doc := by
  rw [validateAndPatch] at h
  cases hID : getByID c (getField doc "$loki") with
  | error e => rw [hID] at h; cases h
  | ok ex =>
    rw [hID] at h
    dsimp only [] at h
    refine ⟨ex, rfl, ?_⟩
    cases hvu : validateUniqueProperties c doc (some ex) with
    | error e => rw [hvu] at h; cases h
    | ok b =>
      rw [hvu] at h
      dsimp only [] at h
      cases hvs : validateObjectSchema S (patchMerge ex doc) with
      | error e => rw [hvs] at h; cases h
      | ok w =>
        rw [hvs] at h
        dsimp only [] at h
        rw [engineUpdate] at h
        cases hgl : getField (patchMerge ex doc) "$loki" with
        | none => rw [hgl] at h; cases h
        | some lv =>
          rw [hgl] at h
          cases lv with
          | vnum i =>
            dsimp only [] at h
            cases hrf : replaceFirst
                (fun r => getField r "$loki" == some (Value.vnum i))
                (patchMerge ex doc) c.data with
            | none => rw [hrf] at h; cases h
            | some nd =>
              obtain ⟨nd1, others⟩ := nd
              rw [hrf] at h
              dsimp only [] at h
              by_cases hcol : c.uniqueNames.any
                  (fun f => collides others (patchMerge ex doc) f) = true
              · rw [if_pos hcol] at h; cases h
              · rw [if_neg hcol] at h
                cases h
                rfl
          | vnull => cases h
          | vbool b => cases h
          | vstr s => cases h
          | vobj fs => cases h

/-- A successful replace stores the validated value under the existing
record's storage fields. -/
theorem validateAndReplace_ok (S : RecSchema) (c : Coll) (doc : Rec)
    (c' : Coll) (r : Rec) (h : validateAndReplace S c doc = (c', .ok r)) :
    ∃ ex validated, getByID c (getField doc "$loki") = .ok ex ∧
      S doc = .ok validated ∧
      r = objectAssign validated (pick ex ["$loki", "meta"]) := by
  rw [validateAndReplace] at h
  cases hID : getByID c (getField doc "$loki") with
  | error e => rw [hID] at h; cases h
  | ok ex =>
    rw [hID] at h
    dsimp only [] at h
    cases hvs : validateObjectSchema S doc with
    | error e => rw [hvs] at h; cases h
    | ok validated =>
      rw [hvs] at h
      dsimp only [] at h
      have hS : S doc = .ok validated := by
        rw [validateObjectSchema] at hvs
        cases hS0 : S doc with
        | error d => rw [hS0] at hvs; cases hvs
        | ok v => rw [hS0] at hvs; cases hvs; rfl
      refine ⟨ex, validated, rfl, hS, ?_⟩
      cases hvu : validateUniqueProperties c validated (some ex) with
      | error e => rw [hvu] at h; cases h
      | ok b =>
        rw [hvu] at h
        dsimp only [] at h
        rw [engineUpdate] at h
        cases hgl : getField (objectAssign validated (pick ex ["$loki", "meta"]))
            "$loki" with
        | none => rw [hgl] at h; cases h
        | some lv =>
          rw [hgl] at h
          cases lv with
          | vnum i =>
            dsimp only [] at h
            cases hrf : replaceFirst
                (fun r => getField r "$loki" == some (Value.vnum i))
                (objectAssign validated (pick ex ["$loki", "meta"])) c.data with
            | none => rw [hrf] at h; cases h
            | some nd =>
              obtain ⟨nd1, others⟩ := nd
              rw [hrf] at h
              dsimp only [] at h
              by_cases hcol : c.uniqueNames.any
                  (fun f => collides others
                    (objectAssign validated (pick ex ["$loki", "meta"])) f) = true
              · rw [if_pos hcol] at h; cases h
              · rw [if_neg hcol] at h
                cases h
                rfl
          | vnull => cases h
          | vbool b => cases h
          | vstr s => cases h
          | vobj fs => cases h

theorem pick_storage_of (ex : Rec) (lv mv : Value)
    (hl : getField ex "$loki" = some lv) (hm : getField ex "meta" = some mv) :
    pick ex ["$loki", "meta"] = [("$loki", lv), ("meta", mv)] := by
  rw [pick]
  simp [List.filterMap_cons, hl, hm]

/-! ## Claim C1 -/

/-- C1: Rebuild atomicity — for every existing collection whose
storage-stripped data fails the collection-level schema, `rebuild` throws
a `ValidationError` and returns the database completely unchanged: the
original collection keeps its record count and field values, and the
destructive `removeCollection` step is never reached. -/
theorem C1_rebuild_atomic (I : Initr) (db : DB) (c : Coll) (msg : String)
    (hget : getCollection db I.collectionName = some c)
    (hfail : I.collectionSchema (c.data.map stripLokiProperties) = .error msg) :
    rebuild I db =
      (db, some { name := .validationError
                  message := "unable to rebuild " ++ I.collectionName ++
                    " collection: invalid existing data" }) := by
  rw [rebuild, hget]
  dsimp only []
  rw [hfail]

def c1Meta : Value := Value.vobj [("revision", Value.vnum 0), ("created", Value.vnum 0)]

def c1Coll : Coll :=
  { uniqueNames := []
    data := [[("name", Value.vstr "john"), ("meta", c1Meta), ("$loki", Value.vnum 1)]]
    maxId := 1 }

def c1Initr : Initr :=
  { collectionName := "TESTS"
    uniqueKeys := ["name"]
    collectionSchema := fun _ => .error "invalid existing data"
    objectSchema := anySchemaRec }

def c1DB : DB := [("TESTS", c1Coll)]

/-- Witness for C1: a concrete database whose collection fails the
collection schema; `rebuild` throws and the database is unchanged. -/
theorem C1_rebuild_atomic_witness :
    rebuild c1Initr c1DB =
      (c1DB, some { name := .validationError
                    message := "unable to rebuild TESTS collection: invalid existing data" }) :=
  C1_rebuild_atomic c1Initr c1DB c1Coll "invalid existing data" rfl rfl

/-! ## Claim C7 -/

/-- C7: Insert validation order — `validateAndInsert` runs the record
schema first: an input the schema rejects produces the schema's
`ValidationError` (for every collection state, duplicates present or
not, so no duplicate-key check is consulted), and on success the stored
record is the schema-validated value (appended with engine-assigned
storage fields; its application-level fields are exactly the validated
value's). -/
theorem C7_insert_validation_order (S : RecSchema) (c : Coll) (doc : Rec) :
    (∀ d, S doc = .error d →
      validateAndInsert S c doc = (c, .error (schemaErr d))) ∧
    (∀ validated c' r, S doc = .ok validated →
      validateAndInsert S c doc = (c', .ok r) →
      c'.data = c.data ++ [r] ∧ c'.maxId = c.maxId + 1 ∧
      getField r "$loki" = some (Value.vnum (Int.ofNat (c.maxId + 1))) ∧
      stripLokiProperties r = stripLokiProperties validated) := by
  constructor
  · intro d hd
    rw [validateAndInsert, validateObjectSchema, hd]
  · intro validated c' r hok h
    rw [validateAndInsert, validateObjectSchema, hok] at h
    dsimp only [] at h
    cases hvu : validateUniqueProperties c doc none with
    | error e => rw [hvu] at h; cases h
    | ok b =>
      rw [hvu] at h
      dsimp only [] at h
      rw [engineInsert] at h
      by_cases hl : (getField validated "$loki").isSome
      · rw [if_pos hl] at h; cases h
      · rw [if_neg hl] at h
        dsimp only [] at h
        by_cases hcol : (c.uniqueNames.any (fun f =>
            collides c.data (augmentRec validated (c.maxId + 1)) f)) = true
        · rw [if_pos hcol] at h; cases h
        · rw [if_neg hcol] at h
          cases h
          refine ⟨rfl, rfl, ?_, ?_⟩
          · rw [augmentRec, getField_setField]
            simp
          · rw [augmentRec, strip_setField_storage _ _ _ (by decide),
              strip_setField_storage _ _ _ (by decide)]

def c7Coll : Coll := { uniqueNames := ["slug"], data := [], maxId := 0 }

def c7Doc : Rec := [("slug", Value.vstr "a")]

def c7Rec : Rec :=
  [("slug", Value.vstr "a"),
   ("meta", Value.vobj [("revision", Value.vnum 0), ("created", Value.vnum 0)]),
   ("$loki", Value.vnum 1)]

def c7CollAfter : Coll := { uniqueNames := ["slug"], data := [c7Rec], maxId := 1 }

/-- Witness for C7 at a concrete successful insert. -/
theorem C7_insert_validation_order_witness :
    c7CollAfter.data = c7Coll.data ++ [c7Rec] ∧
    c7CollAfter.maxId = c7Coll.maxId + 1 ∧
    getField c7Rec "$loki" = some (Value.vnum (Int.ofNat (c7Coll.maxId + 1))) ∧
    stripLokiProperties c7Rec = stripLokiProperties c7Doc :=
  (C7_insert_validation_order anySchemaRec c7Coll c7Doc).2 c7Doc c7CollAfter c7Rec
    rfl rfl

/-! ## Claim C8 -/

/-- C8: Upsert dichotomy — when the input carries a storage ID that
resolves to a live record, `upsert` is exactly a raw engine update (no
schema validation: `upsert` is not even parameterized by a schema; no
uniqueness validation by this layer).  Otherwise it is exactly an engine
insert of the storage-stripped input, so any supplied storage ID and
metadata are discarded, and a successful insert returns a record with
the fresh engine-assigned storage ID and freshly generated metadata.
(Storage IDs of live records are positive, so the code's truthiness test
on the ID coincides with "resolves".) -/
theorem C8_upsert_dichotomy (c : Coll) (doc : Rec) :
    (∀ i, getField doc "$loki" = some (Value.vnum i) → i ≠ 0 →
      (engineGet c i).isSome = true → upsert c doc = engineUpdate c doc) ∧
    ((∀ i, getField doc "$loki" = some (Value.vnum i) →
        i = 0 ∨ (engineGet c i).isSome = false) →
      upsert c doc = engineInsert c (stripLokiProperties doc) ∧
      ∀ c' r, upsert c doc = (c', .ok r) →
        getField r "$loki" = some (Value.vnum (Int.ofNat (c.maxId + 1))) ∧
        getField r "meta" = some (stampMeta none)) := by
  constructor
  · intro i hi hne hsome
    rw [upsert, hi]
    dsimp only []
    rw [if_pos]
    simp [hne, hsome]
  · intro hnores
    have hins : upsert c doc = engineInsert c (stripLokiProperties doc) := by
      rw [upsert]
      cases hl : getField doc "$loki" with
      | none => rfl
      | some v =>
        cases v with
        | vnum i =>
          dsimp only []
          rw [if_neg]
          intro hc
          rcases Bool.and_eq_true _ _ |>.mp hc with ⟨h1, h2⟩
          rcases hnores i hl with h0 | h0
          · subst h0; simp at h1
          · rw [h0] at h2; cases h2
        | vnull => rfl
        | vbool b => rfl
        | vstr s => rfl
        | vobj fs => rfl
    refine ⟨hins, ?_⟩
    intro c' r h
    rw [hins, engineInsert] at h
    rw [getField_strip_loki] at h
    rw [if_neg (by simp)] at h
    dsimp only [] at h
    by_cases hcol : (c.uniqueNames.any (fun f =>
        collides c.data (augmentRec (stripLokiProperties doc) (c.maxId + 1)) f)) = true
    · rw [if_pos hcol] at h; cases h
    · rw [if_neg hcol] at h
      cases h
      constructor
      · rw [augmentRec, getField_setField]
        simp
      · rw [augmentRec, getField_setField]
        rw [if_neg (by decide)]
        rw [getField_setField]
        rw [if_pos (by decide), getField_strip_meta]

def c8Coll : Coll := { uniqueNames := ["slug"], data := [], maxId := 2 }

def c8Doc : Rec :=
  [("$loki", Value.vnum 42), ("meta", Value.vobj [("a", Value.vnum 1)]),
   ("slug", Value.vstr "c")]

def c8Rec : Rec :=
  [("slug", Value.vstr "c"),
   ("meta", Value.vobj [("revision", Value.vnum 0), ("created", Value.vnum 0)]),
   ("$loki", Value.vnum 3)]

def c8CollAfter : Coll := { uniqueNames := ["slug"], data := [c8Rec], maxId := 3 }

def c8LiveRec : Rec := [("slug", Value.vstr "a"), ("$loki", Value.vnum 1)]

def c8CollLive : Coll := { uniqueNames := ["slug"], data := [c8LiveRec], maxId := 1 }

def c8DocUpd : Rec := [("$loki", Value.vnum 1), ("slug", Value.vstr "b")]

/-- Witness for C8: a supplied storage ID 42 that resolves to nothing is
discarded — the document is stripped and inserted with fresh ID 3 and
fresh metadata — while an ID resolving to a live record takes the raw
update path. -/
theorem C8_upsert_dichotomy_witness :
    (upsert c8Coll c8Doc = engineInsert c8Coll (stripLokiProperties c8Doc) ∧
      getField c8Rec "$loki" = some (Value.vnum (Int.ofNat (c8Coll.maxId + 1))) ∧
      getField c8Rec "meta" = some (stampMeta none)) ∧
    upsert c8CollLive c8DocUpd = engineUpdate c8CollLive c8DocUpd := by
  have h2 := (C8_upsert_dichotomy c8Coll c8Doc).2 (fun i hi => by
    have h42 : (42 : Int) = i := by
      have : some (Value.vnum 42) = some (Value.vnum i) := by
        rw [← hi]; rfl
      cases this; rfl
    subst h42
    right
    rfl)
  refine ⟨⟨h2.1, ?_⟩, ?_⟩
  · exact h2.2 c8CollAfter c8Rec rfl
  · exact (C8_upsert_dichotomy c8CollLive c8DocUpd).1 1 rfl (by decide) rfl

/-! ## Claim C10 -/

/-- C10: Patch skips the schema's output — `validateAndPatch` validates
the merged record against the record schema (a schema failure aborts
with the schema's error), but on success it stores the raw merged value,
for every schema `S` whatsoever, so a coerced or defaulted value the
schema returned is discarded; `validateAndInsert` and
`validateAndReplace`, by contrast, store the schema-validated value
(their stored records agree with it on all application-level fields). -/
theorem C10_patch_skips_schema_output (S : RecSchema) (c : Coll) (doc : Rec)
    (id : Int) (ex : Rec)
    (hdoc : getField doc "$loki" = some (Value.vnum id))
    (hid : 1 ≤ id)
    (hex : engineGet c id = some ex) :
    (∀ c' r, validateAndPatch S c doc = (c', .ok r) → r = patchMerge ex doc) ∧
    (∀ d, validateUniqueProperties c doc (some ex) = .ok true →
      S (patchMerge ex doc) = .error d →
      validateAndPatch S c doc = (c, .error (schemaErr d))) ∧
    (∀ validated c' r, S doc = .ok validated →
      validateAndReplace S c doc = (c', .ok r) →
      ∀ k, keepKey k = true → getField r k = getField validated k) := by
  have hbyid : getByID c (getField doc "$loki") = .ok ex := by
    rw [hdoc]; exact getByID_ok_of c id ex hid hex
  refine ⟨?_, ?_, ?_⟩
  · intro c' r h
    rcases validateAndPatch_ok S c doc c' r h with ⟨ex', hex', hr⟩
    rw [hbyid] at hex'
    cases hex'
    exact hr
  · intro d hvu hserr
    rw [validateAndPatch, hbyid]
    dsimp only []
    rw [hvu]
    dsimp only []
    rw [validateObjectSchema, hserr]
  · intro validated c' r hS h k hkk
    rcases validateAndReplace_ok S c doc c' r h with ⟨ex', validated', hex', hS', hr⟩
    rw [hbyid] at hex'
    cases hex'
    rw [hS] at hS'
    cases hS'
    subst hr
    rw [getField_objectAssign_not_mem]
    intro p hp
    have hmem := mem_pick ex ["$loki", "meta"] p hp
    have hkk' : ¬(k = "$loki") ∧ ¬(k = "meta") := by
      rw [keepKey] at hkk
      constructor
      · intro hc; subst hc; simp at hkk
      · intro hc; subst hc; simp at hkk
    rcases List.mem_cons.mp hmem with h1 | h1
    · rw [h1]
      simp only [beq_eq_false_iff_ne, ne_eq]
      intro hc
      exact hkk'.1 hc.symm
    · have h2 : p.1 = "meta" := by simpa using h1
      rw [h2]
      simp only [beq_eq_false_iff_ne, ne_eq]
      intro hc
      exact hkk'.2 hc.symm

/-- A concrete defaulting record schema: accepts everything and returns
the value with `isDisabled` defaulted to `false`. -/
def c10S : RecSchema := fun r => .ok (setField r "isDisabled" (Value.vbool false))

def c10Ex : Rec :=
  [("slug", Value.vstr "a"), ("content", Value.vstr "123"), ("meta", c1Meta),
   ("$loki", Value.vnum 1)]

def c10Coll : Coll := { uniqueNames := ["slug"], data := [c10Ex], maxId := 1 }

def c10Doc : Rec := [("$loki", Value.vnum 1), ("slug", Value.vstr "c")]

def c10PatchRes : Rec :=
  [("$loki", Value.vnum 1), ("meta", c1Meta), ("slug", Value.vstr "c"),
   ("content", Value.vstr "123")]

def c10CollAfter : Coll := { uniqueNames := ["slug"], data := [c10PatchRes], maxId := 1 }

def c10DocR : Rec := [("$loki", Value.vnum 1), ("slug", Value.vstr "d")]

def c10ValidatedR : Rec :=
  [("$loki", Value.vnum 1), ("slug", Value.vstr "d"),
   ("isDisabled", Value.vbool false)]

def c10ReplaceRes : Rec :=
  [("$loki", Value.vnum 1), ("slug", Value.vstr "d"),
   ("isDisabled", Value.vbool false), ("meta", c1Meta)]

def c10CollAfterR : Coll := { uniqueNames := ["slug"], data := [c10ReplaceRes], maxId := 1 }

/-- Witness for C10: under a schema that defaults `isDisabled := false`,
the stored patch result is the raw merge — it lacks the default the
schema's returned value carries — while the stored replace result keeps
the schema's default. -/
theorem C10_patch_skips_schema_output_witness :
    c10PatchRes = patchMerge c10Ex c10Doc ∧
    getField c10PatchRes "isDisabled" = none ∧
    c10S (patchMerge c10Ex c10Doc) =
      .ok (c10PatchRes ++ [("isDisabled", Value.vbool false)]) ∧
    getField c10ReplaceRes "isDisabled" = getField c10ValidatedR "isDisabled" ∧
    getField c10ValidatedR "isDisabled" = some (Value.vbool false) := by
  have hmain := C10_patch_skips_schema_output c10S c10Coll c10Doc 1 c10Ex rfl
    (by decide) rfl
  refine ⟨hmain.1 c10CollAfter c10PatchRes (by rfl), rfl, by rfl, ?_, rfl⟩
  have hmainR := C10_patch_skips_schema_output c10S c10Coll c10DocR 1 c10Ex rfl
    (by decide) rfl
  exact hmainR.2.2 c10ValidatedR c10CollAfterR c10ReplaceRes rfl rfl "isDisabled"
    (by decide)

/-! ## Claim C3 -/

def c3Ex : Rec :=
  [("slug", Value.vstr "a"), ("content", Value.vstr "123"), ("meta", c1Meta),
   ("$loki", Value.vnum 1)]

def c3Coll : Coll := { uniqueNames := ["slug"], data := [c3Ex], maxId := 1 }

def c3Doc : Rec :=
  [("$loki", Value.vnum 1), ("meta", Value.vobj [("hacked", Value.vnum 7)]),
   ("slug", Value.vstr "c")]

def c3MetaLeaked : Value :=
  Value.vobj [("revision", Value.vnum 0), ("created", Value.vnum 0), ("hacked", Value.vnum 7)]

def c3Res : Rec :=
  [("$loki", Value.vnum 1), ("meta", c3MetaLeaked), ("slug", Value.vstr "c"),
   ("content", Value.vstr "123")]

def c3CollAfter : Coll := { uniqueNames := ["slug"], data := [c3Res], maxId := 1 }

/-- C3 counterexample: a successful `validateAndPatch` whose input
supplies `meta: {hacked: 7}` stores a record whose `meta` is the
existing `{revision: 0, created: 0}` extended with the input's `hacked`
key — not equal to the pre-call existing record's `meta`, refuting the
claim that the resulting record's `meta` always equals the existing
one's regardless of the input. -/
theorem C3_counterexample :
    validateAndPatch anySchemaRec c3Coll c3Doc = (c3CollAfter, .ok c3Res) ∧
    getField c3Ex "meta" = some c1Meta ∧
    getField c3Res "meta" = some c3MetaLeaked ∧
    c3MetaLeaked ≠ c1Meta := by
  refine ⟨by rfl, rfl, rfl, by decide⟩

/-- C3 (amended): storage-field protection as the code implements it —
for every successful `validateAndReplace`, the stored record's `$loki`
and `meta` equal the pre-call existing record's, regardless of the
input; for every successful `validateAndPatch`, the stored record's
`$loki` equals the existing record's, and its `meta` is the existing
record's `meta` deep-extended by the input's `meta` (so it equals the
existing `meta` exactly when the input supplies no `meta` object with
novel keys — an object-valued input `meta` can contribute additional
keys, per the counterexample). -/
theorem C3_storage_field_protection_amended (S : RecSchema) (c : Coll) (doc : Rec)
    (id : Int) (ex : Rec) (mv : Value)
    (hdoc : getField doc "$loki" = some (Value.vnum id))
    (hid : 1 ≤ id)
    (hex : engineGet c id = some ex)
    (hmv : getField ex "meta" = some mv)
    (hnd : nodupKeysV mv = true) :
    (∀ c' r, validateAndReplace S c doc = (c', .ok r) →
      getField r "$loki" = some (Value.vnum id) ∧ getField r "meta" = some mv) ∧
    (∀ c' r, validateAndPatch S c doc = (c', .ok r) →
      getField r "$loki" = some (Value.vnum id) ∧
      getField r "meta" = some (match getField doc "meta" with
        | some dmv => defaultsDeepVal mv dmv
        | none => mv)) := by
  have hbyid : getByID c (getField doc "$loki") = .ok ex := by
    rw [hdoc]; exact getByID_ok_of c id ex hid hex
  have hexl : getField ex "$loki" = some (Value.vnum id) := engineGet_loki c id ex hex
  constructor
  · intro c' r h
    rcases validateAndReplace_ok S c doc c' r h with ⟨ex', validated, hex', _, hr⟩
    rw [hbyid] at hex'
    cases hex'
    subst hr
    rw [pick_storage_of ex (Value.vnum id) mv hexl hmv]
    have hassign : objectAssign validated [("$loki", Value.vnum id), ("meta", mv)]
        = setField (setField validated "$loki" (Value.vnum id)) "meta" mv := rfl
    rw [hassign]
    constructor
    · rw [getField_setField, if_neg (by decide), getField_setField, if_pos (by decide)]
    · rw [getField_setField, if_pos (by decide)]
  · intro c' r h
    rcases validateAndPatch_ok S c doc c' r h with ⟨ex', hex', hr⟩
    rw [hbyid] at hex'
    cases hex'
    subst hr
    exact ⟨getField_patchMerge_loki ex doc id hexl,
      getField_patchMerge_meta ex doc mv hmv hnd⟩

def c3DocR : Rec :=
  [("$loki", Value.vnum 1), ("slug", Value.vstr "x"), ("meta", Value.vstr "junk")]

def c3ReplRes : Rec :=
  [("$loki", Value.vnum 1), ("slug", Value.vstr "x"), ("meta", c1Meta)]

def c3CollAfterR : Coll := { uniqueNames := ["slug"], data := [c3ReplRes], maxId := 1 }

def c3DocP : Rec := [("$loki", Value.vnum 1), ("slug", Value.vstr "y")]

def c3PatchRes : Rec :=
  [("$loki", Value.vnum 1), ("meta", c1Meta), ("slug", Value.vstr "y"),
   ("content", Value.vstr "123")]

def c3CollAfterP : Coll := { uniqueNames := ["slug"], data := [c3PatchRes], maxId := 1 }

/-- Witness for the amended C3: a concrete replace whose input supplies
junk `meta` still stores the existing `$loki` and `meta`, and a concrete
patch without a `meta` field keeps the existing `meta` unchanged. -/
theorem C3_storage_field_protection_amended_witness :
    (getField c3ReplRes "$loki" = some (Value.vnum 1) ∧
      getField c3ReplRes "meta" = some c1Meta) ∧
    (getField c3PatchRes "$loki" = some (Value.vnum 1) ∧
      getField c3PatchRes "meta" = some c1Meta) := by
  have hR := (C3_storage_field_protection_amended anySchemaRec c3Coll c3DocR 1 c3Ex
    c1Meta rfl (by decide) rfl rfl (by decide)).1 c3CollAfterR c3ReplRes (by rfl)
  have hP := (C3_storage_field_protection_amended anySchemaRec c3Coll c3DocP 1 c3Ex
    c1Meta rfl (by decide) rfl rfl (by decide)).2 c3CollAfterP c3PatchRes (by rfl)
  exact ⟨hR, hP⟩

/-! ## Claim C6 -/

def c6Ex : Rec :=
  [("slug", Value.vstr "a"),
   ("address", Value.vobj [("city", Value.vstr "y"), ("zip", Value.vnum 9)]),
   ("meta", c1Meta), ("$loki", Value.vnum 1)]

def c6Coll : Coll := { uniqueNames := ["slug"], data := [c6Ex], maxId := 1 }

def c6Doc : Rec :=
  [("$loki", Value.vnum 1), ("address", Value.vobj [("city", Value.vstr "x")])]

def c6AddrMerged : Value :=
  Value.vobj [("city", Value.vstr "x"), ("zip", Value.vnum 9)]

def c6Res : Rec :=
  [("$loki", Value.vnum 1), ("meta", c1Meta), ("address", c6AddrMerged),
   ("slug", Value.vstr "a")]

def c6CollAfter : Coll := { uniqueNames := ["slug"], data := [c6Res], maxId := 1 }

/-- C6 counterexample: for an object-valued field explicitly present in
the patch, the stored value is NOT the patch's value — the existing
record's missing sub-keys are deep-merged in (`zip: 9` survives), so
"fields explicitly present in record take precedence" fails as stated. -/
theorem C6_counterexample :
    validateAndPatch anySchemaRec c6Coll c6Doc = (c6CollAfter, .ok c6Res) ∧
    getField c6Doc "address" = some (Value.vobj [("city", Value.vstr "x")]) ∧
    getField c6Res "address" = some c6AddrMerged ∧
    c6AddrMerged ≠ Value.vobj [("city", Value.vstr "x")] :=
  ⟨by rfl, rfl, rfl, by decide⟩

/-- C6 (amended): patch merge semantics as the code implements it — for
every successful `validateAndPatch`, on application-level fields the
patch's value takes precedence but is deep-merged with the existing
value when both are objects (fields absent from the patch fall back to
the existing record); `$loki` comes from the existing record, and `meta`
is the existing record's `meta` deep-extended by the patch's. -/
theorem C6_patch_merge_semantics_amended (S : RecSchema) (c : Coll) (doc : Rec)
    (id : Int) (ex : Rec) (mv : Value)
    (hdoc : getField doc "$loki" = some (Value.vnum id))
    (hid : 1 ≤ id)
    (hex : engineGet c id = some ex)
    (hmv : getField ex "meta" = some mv)
    (hnd : nodupKeysV mv = true) :
    ∀ c' r, validateAndPatch S c doc = (c', .ok r) →
      (∀ k, keepKey k = true →
        getField r k =
          match getField doc k, getField ex k with
          | some dv, some ev => some (defaultsDeepVal dv ev)
          | some dv, none => some dv
          | none, o => o) ∧
      getField r "$loki" = some (Value.vnum id) ∧
      getField r "meta" = some (match getField doc "meta" with
        | some dmv => defaultsDeepVal mv dmv
        | none => mv) := by
  have hbyid : getByID c (getField doc "$loki") = .ok ex := by
    rw [hdoc]; exact getByID_ok_of c id ex hid hex
  have hexl : getField ex "$loki" = some (Value.vnum id) := engineGet_loki c id ex hex
  intro c' r h
  rcases validateAndPatch_ok S c doc c' r h with ⟨ex', hex', hr⟩
  rw [hbyid] at hex'
  cases hex'
  subst hr
  refine ⟨?_, getField_patchMerge_loki ex doc id hexl,
    getField_patchMerge_meta ex doc mv hmv hnd⟩
  intro k hkk
  have hkk' : ¬(k = "$loki") ∧ ¬(k = "meta") := by
    rw [keepKey] at hkk
    constructor
    · intro hc; subst hc; simp at hkk
    · intro hc; subst hc; simp at hkk
  exact getField_patchMerge_other ex doc k hkk'.1 hkk'.2

def c6SEx : Rec :=
  [("slug", Value.vstr "a"), ("content", Value.vstr "123"), ("meta", c1Meta),
   ("$loki", Value.vnum 1)]

def c6SColl : Coll := { uniqueNames := ["slug"], data := [c6SEx], maxId := 1 }

def c6SDoc : Rec :=
  [("$loki", Value.vnum 1), ("slug", Value.vstr "c"), ("extra", Value.vstr "xxx")]

def c6SRes : Rec :=
  [("$loki", Value.vnum 1), ("meta", c1Meta), ("slug", Value.vstr "c"),
   ("extra", Value.vstr "xxx"), ("content", Value.vstr "123")]

def c6SCollAfter : Coll := { uniqueNames := ["slug"], data := [c6SRes], maxId := 1 }

/-- Witness for the amended C6 at the spec's Scenario C: patching
`{slug: "c", extra: "xxx"}` onto `{slug: "a", content: "123"}` at
storage ID 1 yields `{slug: "c", content: "123", extra: "xxx"}` with the
existing storage ID. -/
theorem C6_patch_merge_semantics_amended_witness :
    getField c6SRes "slug" = some (Value.vstr "c") ∧
    getField c6SRes "content" = some (Value.vstr "123") ∧
    getField c6SRes "extra" = some (Value.vstr "xxx") ∧
    getField c6SRes "$loki" = some (Value.vnum 1) := by
  have h := C6_patch_merge_semantics_amended anySchemaRec c6SColl c6SDoc 1 c6SEx
    c1Meta rfl (by decide) rfl rfl (by decide) c6SCollAfter c6SRes (by rfl)
  exact ⟨h.1 "slug" (by decide), h.1 "content" (by decide),
    h.1 "extra" (by decide), h.2.1⟩

/-! ## Claim C5 -/

theorem engineBy_isSome_iff (c : Coll) (f : String) (v : Value) :
    (engineBy c f v).isSome = true ↔ ∃ r2 ∈ c.data, getField r2 f = some v := by
  rw [engineBy, List.find?_isSome]
  constructor
  · rintro ⟨r2, hr2, hp⟩
    exact ⟨r2, hr2, by simpa using hp⟩
  · rintro ⟨r2, hr2, hp⟩
    exact ⟨r2, hr2, by simp [hp]⟩

/-- The firing condition of `validateUniqueProperties` at one key,
characterized: the document's value is defined and truthy, differs from
the existing record's value at that key (when an existing record is
given), and some live record already carries it. -/
theorem dupTrigger_iff (c : Coll) (doc : Rec) (existing : Option Rec) (key : String) :
    dupTrigger c doc existing key = true ↔
      ∃ v, getField doc key = some v ∧ truthy v = true ∧
        (∀ exr, existing = some exr → getField exr key ≠ some v) ∧
        ∃ r2 ∈ c.data, getField r2 key = some v := by
  rw [dupTrigger]
  cases hd : getField doc key with
  | none => simp
  | some kv =>
    dsimp only []
    simp only [Bool.and_eq_true, Bool.not_eq_true']
    constructor
    · rintro ⟨⟨ht, heq⟩, hby⟩
      refine ⟨kv, rfl, ht, ?_, (engineBy_isSome_iff c key kv).mp hby⟩
      intro exr hexr hcontra
      subst hexr
      dsimp only [] at heq
      rw [hcontra] at heq
      simp [ht] at heq
    · rintro ⟨v, hv, ht, hne, hby⟩
      have hvv : kv = v := by injection hv
      subst hvv
      refine ⟨⟨ht, ?_⟩, (engineBy_isSome_iff c key kv).mpr hby⟩
      cases existing with
      | none => rfl
      | some exr =>
        dsimp only []
        cases hev : getField exr key with
        | none => rfl
        | some ev =>
          have hne' := hne exr rfl
          by_cases hkv : kv = ev
          · subst hkv
            exact absurd hev hne'
          · simp [hkv]

def c5Rec : Rec := [("u", Value.vnum 0), ("meta", c1Meta), ("$loki", Value.vnum 1)]

def c5Coll : Coll := { uniqueNames := ["u"], data := [c5Rec], maxId := 1 }

def c5Doc : Rec := [("u", Value.vnum 0)]

/-- C5 counterexample: the record supplies the non-null value `0` at the
enforced unique field `u`, no `existing` is given, and a live record
already carries `0` at `u` — by the claim `validateUniqueProperties`
must throw, but the code's truthiness test skips the falsy value `0` and
returns `true`. -/
theorem C5_counterexample :
    validateUniqueProperties c5Coll c5Doc none = .ok true ∧
    "u" ∈ c5Coll.uniqueNames ∧
    getField c5Doc "u" = some (Value.vnum 0) ∧
    Value.vnum 0 ≠ Value.vnull ∧
    ∃ r2 ∈ c5Coll.data, getField r2 "u" = some (Value.vnum 0) := by
  refine ⟨by rfl, by decide, rfl, by decide, c5Rec, List.mem_cons_self _ _, rfl⟩

/-- C5 (amended): `validateUniqueProperties(record, existing?)` throws a
`ValidationError` naming the offending field and value exactly when, for
some enforced unique field `f`, the record supplies a *truthy* value at
`f` (non-null, non-undefined, and also not `false`, `0` or the empty
string — JS truthiness, not mere non-nullness), `existing` is absent or
carries a different value at `f`, and some live record already has that
value at `f`; in all other cases it returns `true`. -/
theorem C5_validate_unique_raises_iff_amended (c : Coll) (doc : Rec)
    (existing : Option Rec) :
    (validateUniqueProperties c doc existing = .ok true ↔
      ∀ f ∈ c.uniqueNames, ¬∃ v, getField doc f = some v ∧ truthy v = true ∧
        (∀ exr, existing = some exr → getField exr f ≠ some v) ∧
        ∃ r2 ∈ c.data, getField r2 f = some v) ∧
    (∀ e, validateUniqueProperties c doc existing = .error e →
      ∃ f ∈ c.uniqueNames, ∃ v, getField doc f = some v ∧ truthy v = true ∧
        (∀ exr, existing = some exr → getField exr f ≠ some v) ∧
        (∃ r2 ∈ c.data, getField r2 f = some v) ∧
        e = dupErr f v) := by
  have hiff := dupTrigger_iff c doc existing
  constructor
  · constructor
    · intro h f hf hex
      rw [validateUniqueProperties] at h
      cases hfind : c.uniqueNames.find? (fun key => dupTrigger c doc existing key) with
      | some key => rw [hfind] at h; cases h
      | none => exact (List.find?_eq_none.mp hfind) f hf ((hiff f).mpr hex)
    · intro hall
      rw [validateUniqueProperties]
      have hfind : c.uniqueNames.find? (fun key => dupTrigger c doc existing key)
          = none := by
        rw [List.find?_eq_none]
        intro f hf hcontra
        exact hall f hf ((hiff f).mp hcontra)
      rw [hfind]
  · intro e he
    rw [validateUniqueProperties] at he
    cases hfind : c.uniqueNames.find? (fun key => dupTrigger c doc existing key) with
    | none => rw [hfind] at he; cases he
    | some key =>
      rw [hfind] at he
      have hmem := List.mem_of_find?_eq_some hfind
      have htrig : dupTrigger c doc existing key = true := List.find?_some hfind
      rcases (hiff key).mp htrig with ⟨v, hv, ht, hne, hby⟩
      refine ⟨key, hmem, v, hv, ht, hne, hby, ?_⟩
      cases he
      rw [hv]
      rfl

def c5WRec1 : Rec :=
  [("u1", Value.vnum 1), ("u2", Value.vstr "a"), ("meta", c1Meta), ("$loki", Value.vnum 1)]

def c5WRec2 : Rec :=
  [("u1", Value.vnum 2), ("u2", Value.vstr "b"), ("meta", c1Meta), ("$loki", Value.vnum 2)]

def c5WColl : Coll := { uniqueNames := ["u1", "u2"], data := [c5WRec1, c5WRec2], maxId := 2 }

def c5WDoc : Rec := [("u1", Value.vnum 3), ("u2", Value.vstr "c")]

def c5WDup : Rec := [("u1", Value.vnum 1)]

/-- Witness for the amended C5: on a two-record collection with unique
fields `u1`, `u2`, a fresh document triggers no duplicate (instantiated
at `u1`), while a document duplicating `u1 = 1` produces the error
naming the offending field and value. -/
theorem C5_validate_unique_raises_iff_amended_witness :
    (¬∃ v, getField c5WDoc "u1" = some v ∧ truthy v = true ∧
        (∀ exr, (none : Option Rec) = some exr → getField exr "u1" ≠ some v) ∧
        ∃ r2 ∈ c5WColl.data, getField r2 "u1" = some v) ∧
    (∃ f ∈ c5WColl.uniqueNames, ∃ v, getField c5WDup f = some v ∧ truthy v = true ∧
        (∀ exr, (none : Option Rec) = some exr → getField exr f ≠ some v) ∧
        (∃ r2 ∈ c5WColl.data, getField r2 f = some v) ∧
        dupErr "u1" (Value.vnum 1) = dupErr f v) := by
  constructor
  · exact (C5_validate_unique_raises_iff_amended c5WColl c5WDoc none).1.mp
      (by rfl) "u1" (by decide)
  · exact (C5_validate_unique_raises_iff_amended c5WColl c5WDup none).2
      (dupErr "u1" (Value.vnum 1)) (by rfl)

/-! ## Claim C9 -/

/-- C9 counterexample: the empty string is a single string, so by the
claim construction must succeed, but `Schema.uniqueKeys` requires
non-empty strings (`Joi.string().min(1)`) and the factory throws — and
the thrown error is the ordinary `ValidationError` kind, not a separate
configuration-error kind (the code defines no such kind). -/
theorem C9_counterexample :
    ∃ e, mkInitializer "TESTS" (UKInput.single (Value.vstr "")) anySchemaColl
        anySchemaRec = .error e ∧
      e = { name := .validationError, message := "invalid uniqueKeys" } :=
  ⟨{ name := .validationError, message := "invalid uniqueKeys" }, rfl, rfl⟩

/-- C9 (amended): the `Initializer` factory succeeds exactly when the
unique-keys input (a bare value being wrapped into a one-element
sequence) is a sequence of *non-empty* strings with no duplicates; any
other input — a number, booleans, duplicates, or an empty string —
fails immediately with a `ValidationError` carrying the message
`invalid uniqueKeys` (the code's single validation-error kind; no
separate ConfigurationError kind exists).  The factory takes no database
value at all, so construction involves no database access; a successful
construction records the collection name and the validated keys. -/
theorem C9_construction_validation_amended (name : String) (input : UKInput)
    (cs : CollSchema) (os : RecSchema) :
    ((∃ I, mkInitializer name input cs os = .ok I) ↔
      ((valueToArray input).all validKey && nodupValues (valueToArray input)) = true) ∧
    (∀ e, mkInitializer name input cs os = .error e →
      e = { name := .validationError, message := "invalid uniqueKeys" }) ∧
    (∀ I, mkInitializer name input cs os = .ok I →
      I.collectionName = name ∧
      I.uniqueKeys = (valueToArray input).filterMap
        (fun v => match v with | .vstr s => some s | _ => none)) := by
  by_cases hc : ((valueToArray input).all validKey
      && nodupValues (valueToArray input)) = true
  · refine ⟨?_, ?_, ?_⟩
    · simp [mkInitializer, hc]
    · intro e he
      simp only [mkInitializer] at he
      rw [if_pos hc] at he
      cases he
    · intro I hI
      simp only [mkInitializer] at hI
      rw [if_pos hc] at hI
      cases hI
      exact ⟨rfl, rfl⟩
  · refine ⟨?_, ?_, ?_⟩
    · simp [mkInitializer, hc]
    · intro e he
      simp only [mkInitializer] at he
      rw [if_neg hc] at he
      cases he
      rfl
    · intro I hI
      simp only [mkInitializer] at hI
      rw [if_neg hc] at hI
      cases hI

/-- Witness for the amended C9: the list `["name", "content"]`
constructs successfully, while the number `7` (the spec's Scenario D
input) fails with `ValidationError('invalid uniqueKeys')`. -/
theorem C9_construction_validation_amended_witness :
    (∃ I, mkInitializer "TESTS" (UKInput.list [Value.vstr "name", Value.vstr "content"])
        anySchemaColl anySchemaRec = .ok I) ∧
    (∃ e, mkInitializer "TESTS" (UKInput.single (Value.vnum 7)) anySchemaColl
        anySchemaRec = .error e ∧
      e = { name := .validationError, message := "invalid uniqueKeys" }) := by
  constructor
  · exact (C9_construction_validation_amended "TESTS"
      (UKInput.list [Value.vstr "name", Value.vstr "content"])
      anySchemaColl anySchemaRec).1.mpr (by decide)
  · refine ⟨_, rfl, (C9_construction_validation_amended "TESTS"
      (UKInput.single (Value.vnum 7)) anySchemaColl anySchemaRec).2.1 _ rfl⟩

/-! ## Claim C4 -/

/-- The uniqueness invariant I1: no two distinct live records share an
equal, non-null defined value at any enforced unique field. -/
def UniqOK (c : Coll) : Prop :=
  ∀ f ∈ c.uniqueNames, c.data.Pairwise (fun r1 r2 => sharesUnique r1 r2 f = false)

theorem sharesUnique_iff (r1 r2 : Rec) (f : String) :
    sharesUnique r1 r2 f = true ↔
      ∃ v, getField r1 f = some v ∧ v ≠ Value.vnull ∧ getField r2 f = some v := by
  rw [sharesUnique]
  cases h1 : getField r1 f with
  | none => simp
  | some v =>
    simp only [Bool.and_eq_true, bne_iff_ne, ne_eq, beq_iff_eq]
    constructor
    · rintro ⟨hv, h2⟩
      exact ⟨v, rfl, by simpa using hv, h2⟩
    · rintro ⟨w, hw, hvn, h2⟩
      have : v = w := by injection hw
      subst this
      exact ⟨by simpa using hvn, h2⟩

theorem sharesUnique_symm_false (r1 r2 : Rec) (f : String)
    (h : sharesUnique r1 r2 f = false) : sharesUnique r2 r1 f = false := by
  by_contra hc
  have ht : sharesUnique r2 r1 f = true := by
    cases h2 : sharesUnique r2 r1 f
    · exact absurd h2 hc
    · rfl
  rcases (sharesUnique_iff r2 r1 f).mp ht with ⟨v, h1, hv, h2⟩
  have : sharesUnique r1 r2 f = true :=
    (sharesUnique_iff r1 r2 f).mpr ⟨v, h2, hv, h1⟩
  rw [h] at this
  cases this

theorem engineInsert_uniqOK (c : Coll) (doc : Rec) (hu : UniqOK c) :
    UniqOK (engineInsert c doc).1 := by
  rw [engineInsert]
  by_cases hl : (getField doc "$loki").isSome
  · rw [if_pos hl]; exact hu
  · rw [if_neg hl]
    dsimp only []
    by_cases hcol : (c.uniqueNames.any (fun f =>
        collides c.data (augmentRec doc (c.maxId + 1)) f)) = true
    · rw [if_pos hcol]; exact hu
    · rw [if_neg hcol]
      intro f hf
      have hnof : collides c.data (augmentRec doc (c.maxId + 1)) f = false := by
        cases hcc : collides c.data (augmentRec doc (c.maxId + 1)) f
        · rfl
        · exact absurd (List.any_eq_true.mpr ⟨f, hf, hcc⟩) hcol
      rw [List.pairwise_append]
      refine ⟨hu f hf, List.pairwise_singleton _ _, ?_⟩
      intro a ha b hb
      have hb' : b = augmentRec doc (c.maxId + 1) := by simpa using hb
      subst hb'
      apply sharesUnique_symm_false
      rw [collides] at hnof
      have := List.any_eq_false.mp hnof
      simpa using this a ha

theorem replaceFirst_mem (p : Rec → Bool) (doc : Rec) :
    ∀ (data nd others : List Rec), replaceFirst p doc data = some (nd, others) →
      (∀ x ∈ nd, x = doc ∨ x ∈ data) ∧ (∀ x ∈ others, x ∈ data) := by
  intro data
  induction data with
  | nil => intro nd others h; cases h
  | cons r rest ih =>
    intro nd others h
    rw [replaceFirst] at h
    by_cases hp : p r = true
    · rw [if_pos hp] at h
      cases h
      constructor
      · intro x hx
        rcases List.mem_cons.mp hx with hx | hx
        · exact Or.inl hx
        · exact Or.inr (List.mem_cons_of_mem _ hx)
      · intro x hx
        exact List.mem_cons_of_mem _ hx
    · rw [if_neg hp] at h
      cases hrec : replaceFirst p doc rest with
      | none => rw [hrec] at h; cases h
      | some nd' =>
        obtain ⟨nd1, others1⟩ := nd'
        rw [hrec] at h
        dsimp only [] at h
        cases h
        rcases ih nd1 others1 hrec with ⟨h1, h2⟩
        constructor
        · intro x hx
          rcases List.mem_cons.mp hx with hx | hx
          · exact Or.inr (hx ▸ List.mem_cons_self _ _)
          · rcases h1 x hx with hh | hh
            · exact Or.inl hh
            · exact Or.inr (List.mem_cons_of_mem _ hh)
        · intro x hx
          rcases List.mem_cons.mp hx with hx | hx
          · exact hx ▸ List.mem_cons_self _ _
          · exact List.mem_cons_of_mem _ (h2 x hx)

theorem replaceFirst_pairwise {R : Rec → Rec → Prop} (p : Rec → Bool) (doc : Rec) :
    ∀ (data nd others : List Rec), replaceFirst p doc data = some (nd, others) →
      data.Pairwise R → (∀ x ∈ others, R doc x ∧ R x doc) → nd.Pairwise R := by
  intro data
  induction data with
  | nil => intro nd others h; cases h
  | cons r rest ih =>
    intro nd others h hpw hR
    rw [replaceFirst] at h
    rcases List.pairwise_cons.mp hpw with ⟨hhead, htail⟩
    by_cases hp : p r = true
    · rw [if_pos hp] at h
      cases h
      rw [List.pairwise_cons]
      exact ⟨fun x hx => (hR x hx).1, htail⟩
    · rw [if_neg hp] at h
      cases hrec : replaceFirst p doc rest with
      | none => rw [hrec] at h; cases h
      | some nd' =>
        obtain ⟨nd1, others1⟩ := nd'
        rw [hrec] at h
        dsimp only [] at h
        cases h
        rw [List.pairwise_cons]
        constructor
        · intro x hx
          rcases (replaceFirst_mem p doc rest nd1 others1 hrec).1 x hx with hh | hh
          · subst hh
            exact (hR r (List.mem_cons_self _ _)).2
          · exact hhead x hh
        · exact ih nd1 others1 hrec htail
            (fun x hx => hR x (List.mem_cons_of_mem _ hx))

theorem engineUpdate_uniqOK (c : Coll) (doc : Rec) (hu : UniqOK c) :
    UniqOK (engineUpdate c doc).1 := by
  rw [engineUpdate]
  cases hl : getField doc "$loki" with
  | none => exact hu
  | some v =>
    cases v with
    | vnull => exact hu
    | vbool b => exact hu
    | vstr s => exact hu
    | vobj fs => exact hu
    | vnum id =>
      dsimp only []
      cases hrf : replaceFirst (fun r => getField r "$loki" == some (Value.vnum id))
          doc c.data with
      | none => exact hu
      | some nd' =>
        obtain ⟨nd, others⟩ := nd'
        dsimp only []
        by_cases hcol : (c.uniqueNames.any (fun f => collides others doc f)) = true
        · rw [if_pos hcol]; exact hu
        · rw [if_neg hcol]
          intro f hf
          have hnof : collides others doc f = false := by
            cases hcc : collides others doc f
            · rfl
            · exact absurd (List.any_eq_true.mpr ⟨f, hf, hcc⟩) hcol
          apply replaceFirst_pairwise _ doc c.data nd others hrf (hu f hf)
          intro x hx
          have hdx : sharesUnique doc x f = false := by
            rw [collides] at hnof
            simpa using List.any_eq_false.mp hnof x hx
          exact ⟨hdx, sharesUnique_symm_false doc x f hdx⟩

theorem engineRemove_uniqOK (c : Coll) (doc : Rec) (hu : UniqOK c) :
    UniqOK (engineRemove c doc) := by
  rw [engineRemove]
  cases getField doc "$loki" with
  | none => exact hu
  | some v =>
    intro f hf
    exact List.Pairwise.sublist (List.filter_sublist _) (hu f hf)

/-- The mutation surface of claim C4, as an operation language. -/
inductive VOp where
  | vinsert (doc : Rec)
  | vreplace (doc : Rec)
  | vpatch (doc : Rec)
  | vupsert (doc : Rec)
  | vremoveByID (id : Option Value)

/-- One validated-operation step: the collection after the call (error
or not — on error the operations return the collection unchanged). -/
def applyVOp (S : RecSchema) (c : Coll) : VOp → Coll
  | .vinsert d => (validateAndInsert S c d).1
  | .vreplace d => (validateAndReplace S c d).1
  | .vpatch d => (validateAndPatch S c d).1
  | .vupsert d => (upsert c d).1
  | .vremoveByID i => (removeByID c i).1

def applyVOps (S : RecSchema) : Coll → List VOp → Coll
  | c, [] => c
  | c, op :: ops => applyVOps S (applyVOp S c op) ops

theorem applyVOp_uniqOK (S : RecSchema) (c : Coll) (op : VOp) (hu : UniqOK c) :
    UniqOK (applyVOp S c op) := by
  cases op with
  | vinsert d =>
    rw [applyVOp, validateAndInsert]
    cases validateObjectSchema S d with
    | error e => exact hu
    | ok validated =>
      dsimp only []
      cases validateUniqueProperties c d none with
      | error e => exact hu
      | ok b => exact engineInsert_uniqOK c validated hu
  | vreplace d =>
    rw [applyVOp, validateAndReplace]
    cases getByID c (getField d "$loki") with
    | error e => exact hu
    | ok existing =>
      dsimp only []
      cases validateObjectSchema S d with
      | error e => exact hu
      | ok validated =>
        dsimp only []
        cases validateUniqueProperties c validated (some existing) with
        | error e => exact hu
        | ok b =>
          exact engineUpdate_uniqOK c
            (objectAssign validated (pick existing ["$loki", "meta"])) hu
  | vpatch d =>
    rw [applyVOp, validateAndPatch]
    cases getByID c (getField d "$loki") with
    | error e => exact hu
    | ok existing =>
      dsimp only []
      cases validateUniqueProperties c d (some existing) with
      | error e => exact hu
      | ok b =>
        dsimp only []
        cases validateObjectSchema S (patchMerge existing d) with
        | error e => exact hu
        | ok w => exact engineUpdate_uniqOK c (patchMerge existing d) hu
  | vupsert d =>
    rw [applyVOp, upsert]
    cases getField d "$loki" with
    | none => exact engineInsert_uniqOK c (stripLokiProperties d) hu
    | some v =>
      cases v with
      | vnum i =>
        dsimp only []
        by_cases hres : (i != 0 && (engineGet c i).isSome) = true
        · rw [if_pos hres]; exact engineUpdate_uniqOK c d hu
        · rw [if_neg hres]; exact engineInsert_uniqOK c (stripLokiProperties d) hu
      | vnull => exact engineInsert_uniqOK c (stripLokiProperties d) hu
      | vbool b => exact engineInsert_uniqOK c (stripLokiProperties d) hu
      | vstr s => exact engineInsert_uniqOK c (stripLokiProperties d) hu
      | vobj fs => exact engineInsert_uniqOK c (stripLokiProperties d) hu
  | vremoveByID i =>
    rw [applyVOp, removeByID]
    cases getByID c i with
    | error e => exact hu
    | ok doc => exact engineRemove_uniqOK c doc hu

/-- C4: Uniqueness invariant — starting from any collection satisfying
the invariant (in particular any freshly initialized one), every
sequence of `validateAndInsert` / `validateAndReplace` /
`validateAndPatch` / `upsert` / `removeByID` calls preserves it: for all
pairs of distinct live records and every enforced unique field, the two
records never hold equal, non-null values there (the engine rejects any
insert or update that would create such a pair, and the validation layer
never bypasses the engine). -/
theorem C4_uniqueness_invariant (S : RecSchema) (c : Coll) (ops : List VOp)
    (hu : UniqOK c) : UniqOK (applyVOps S c ops) := by
  induction ops generalizing c with
  | nil => exact hu
  | cons op rest ih =>
    rw [applyVOps]
    exact ih (applyVOp S c op) (applyVOp_uniqOK S c op hu)

def c4Coll : Coll := { uniqueNames := ["slug"], data := [], maxId := 0 }

def c4Ops : List VOp :=
  [.vinsert [("slug", Value.vstr "a"), ("content", Value.vstr "123")],
   .vinsert [("slug", Value.vstr "b")],
   .vinsert [("slug", Value.vstr "a")],
   .vupsert [("slug", Value.vstr "a"), ("content", Value.vstr "999")],
   .vpatch [("$loki", Value.vnum 1), ("slug", Value.vstr "b")],
   .vreplace [("$loki", Value.vnum 2), ("slug", Value.vstr "c")],
   .vremoveByID (some (Value.vnum 1))]

/-- Witness for C4: a concrete run mixing successful and rejected
operations (a duplicate insert, a duplicate upsert, a colliding patch)
ends in a collection still satisfying the invariant. -/
theorem C4_uniqueness_invariant_witness :
    UniqOK (applyVOps anySchemaRec c4Coll c4Ops) :=
  C4_uniqueness_invariant anySchemaRec c4Coll c4Ops
    (fun _ _ => List.Pairwise.nil)

/-! ## Claim C2 -/

def c2CColl : Coll :=
  { uniqueNames := []
    data :=
      [[("name", Value.vstr "john"), ("content", Value.vstr "smith"),
        ("meta", c1Meta), ("$loki", Value.vnum 1)],
       [("name", Value.vstr "john"), ("content", Value.vstr "travolta"),
        ("meta", c1Meta), ("$loki", Value.vnum 2)]]
    maxId := 2 }

def c2CI : Initr :=
  { collectionName := "TESTS", uniqueKeys := ["name"]
    collectionSchema := anySchemaColl, objectSchema := anySchemaRec }

def c2CDB : DB := [("TESTS", c2CColl)]

/-- C2 counterexample: two records duplicating `name: "john"` pass the
(default, accept-anything) collection schema, yet `rebuild` against
unique set `{name}` does not preserve the data — the old collection is
destroyed, the engine rejects the second re-insert, the error
propagates, and the resulting collection holds 1 record instead of 2. -/
theorem C2_counterexample :
    (∃ vs, c2CI.collectionSchema (c2CColl.data.map stripLokiProperties) = .ok vs) ∧
    getCollection c2CDB "TESTS" = some c2CColl ∧
    c2CColl.data.length = 2 ∧
    (rebuild c2CI c2CDB).2.isSome = true ∧
    (getCollection (rebuild c2CI c2CDB).1 "TESTS").map (fun cc => cc.data.length)
      = some 1 :=
  ⟨⟨c2CColl.data.map stripLokiProperties, rfl⟩, rfl, rfl, rfl, rfl⟩

/-- The records a sequence insert produces, with consecutive storage IDs
starting above `base`. -/
def augmentSeq : List Rec → Nat → List Rec
  | [], _ => []
  | d :: rest, base => augmentRec d (base + 1) :: augmentSeq rest (base + 1)

/-- No two documents of the list (in either order) share an equal,
non-null value at any of the given unique fields. -/
def noPairCollision (U : List String) : List Rec → Bool
  | [] => true
  | d :: rest =>
    rest.all (fun d2 => U.all (fun f => !(sharesUnique d d2 f)))
      && noPairCollision U rest

theorem getField_augmentRec_other (d : Rec) (id : Nat) (f : String)
    (h1 : f ≠ "$loki") (h2 : f ≠ "meta") :
    getField (augmentRec d id) f = getField d f := by
  rw [augmentRec, getField_setField, if_neg (by simp [Ne.symm h1]),
    getField_setField, if_neg (by simp [Ne.symm h2])]

theorem getField_augmentRec_loki (d : Rec) (id : Nat) :
    getField (augmentRec d id) "$loki" = some (Value.vnum (Int.ofNat id)) := by
  rw [augmentRec, getField_setField, if_pos (by decide)]

theorem strip_augmentRec (d : Rec) (id : Nat) :
    stripLokiProperties (augmentRec d id) = stripLokiProperties d := by
  rw [augmentRec, strip_setField_storage _ _ _ (by decide),
    strip_setField_storage _ _ _ (by decide)]

theorem augmentSeq_length (docs : List Rec) :
    ∀ base, (augmentSeq docs base).length = docs.length := by
  induction docs with
  | nil => intro base; rfl
  | cons d rest ih => intro base; rw [augmentSeq]; simp [ih]

theorem augmentSeq_map_strip (docs : List Rec) :
    ∀ base, (augmentSeq docs base).map stripLokiProperties
      = docs.map stripLokiProperties := by
  induction docs with
  | nil => intro base; rfl
  | cons d rest ih =>
    intro base
    rw [augmentSeq]
    simp [strip_augmentRec, ih]

theorem augmentSeq_getD_loki (docs : List Rec) :
    ∀ base j, j < docs.length →
      getField ((augmentSeq docs base).getD j []) "$loki"
        = some (Value.vnum (Int.ofNat (base + j + 1))) := by
  induction docs with
  | nil => intro base j hj; cases hj
  | cons d rest ih =>
    intro base j hj
    cases j with
    | zero => rw [augmentSeq]; exact getField_augmentRec_loki d (base + 1)
    | succ j' =>
      rw [augmentSeq]
      have := ih (base + 1) j' (by simpa using Nat.lt_of_succ_lt_succ hj)
      rw [show ((augmentRec d (base + 1) :: augmentSeq rest (base + 1)).getD
        (j' + 1) []) = (augmentSeq rest (base + 1)).getD j' [] from rfl]
      rw [show base + 1 + j' + 1 = base + (j' + 1) + 1 from by omega] at this
      exact this

theorem sharesUnique_congr_left (r1 r1' r2 : Rec) (f : String)
    (h : getField r1 f = getField r1' f) :
    sharesUnique r1 r2 f = sharesUnique r1' r2 f := by
  rw [sharesUnique, sharesUnique, h]

theorem sharesUnique_congr_right (r r2 r2' : Rec) (f : String)
    (h : getField r2 f = getField r2' f) :
    sharesUnique r r2 f = sharesUnique r r2' f := by
  rw [sharesUnique, sharesUnique, h]

theorem collides_congr (dat : List Rec) (r r' : Rec) (f : String)
    (h : getField r f = getField r' f) :
    collides dat r f = collides dat r' f := by
  rw [collides, collides]
  congr 1
  funext r2
  exact sharesUnique_congr_left r r' r2 f h

theorem collides_append_single (A : List Rec) (x r : Rec) (f : String) :
    collides (A ++ [x]) r f = (collides A r f || sharesUnique r x f) := by
  simp [collides, List.any_append]

/-- Characterization of a successful engine insert. -/
theorem engineInsert_ok_char (c : Coll) (doc : Rec)
    (hnl : getField doc "$loki" = none)
    (hcol : ∀ f ∈ c.uniqueNames,
      collides c.data (augmentRec doc (c.maxId + 1)) f = false) :
    engineInsert c doc =
      ({ c with
          data := c.data ++ [augmentRec doc (c.maxId + 1)],
          maxId := c.maxId + 1 }, .ok (augmentRec doc (c.maxId + 1))) := by
  rw [engineInsert, hnl]
  rw [if_neg (by simp)]
  dsimp only []
  have hany : (c.uniqueNames.any (fun f =>
      collides c.data (augmentRec doc (c.maxId + 1)) f)) = false := by
    rw [List.any_eq_false]
    intro f hf
    simp only [Bool.not_eq_true]
    exact hcol f hf
  rw [if_neg (by simp [hany])]

/-- Replaying a sequence of storage-stripped, pairwise collision-free
documents into a collection they do not collide with succeeds wholesale
and appends them in order with consecutive fresh storage IDs. -/
theorem insertMany_clean (U : List String) (hlok : "$loki" ∉ U)
    (hmeta : "meta" ∉ U) :
    ∀ (docs : List Rec) (c : Coll), c.uniqueNames = U →
      (∀ d ∈ docs, getField d "$loki" = none) →
      (∀ d ∈ docs, ∀ f ∈ U, collides c.data d f = false) →
      noPairCollision U docs = true →
      insertMany c docs =
        ({ uniqueNames := c.uniqueNames, data := c.data ++ augmentSeq docs c.maxId,
           maxId := c.maxId + docs.length }, none) := by
  intro docs
  induction docs with
  | nil =>
    intro c hU h1 h2 h3
    rw [insertMany, augmentSeq]
    simp
  | cons d rest ih =>
    intro c hU h1 h2 h3
    rw [noPairCollision, Bool.and_eq_true] at h3
    obtain ⟨h3head, h3tail⟩ := h3
    have hpairhead : ∀ d2 ∈ rest, ∀ f ∈ U, sharesUnique d d2 f = false := by
      intro d2 hd2 f hf
      have hall := List.all_eq_true.mp h3head d2 hd2
      have := List.all_eq_true.mp hall f hf
      simpa using this
    have hd1 : getField d "$loki" = none := h1 d (List.mem_cons_self _ _)
    have hfne : ∀ f ∈ U, f ≠ "$loki" ∧ f ≠ "meta" := by
      intro f hf
      exact ⟨fun hc => hlok (hc ▸ hf), fun hc => hmeta (hc ▸ hf)⟩
    have hcolf : ∀ f ∈ c.uniqueNames,
        collides c.data (augmentRec d (c.maxId + 1)) f = false := by
      intro f hf
      rw [hU] at hf
      rw [collides_congr c.data _ d f
        (getField_augmentRec_other d (c.maxId + 1) f (hfne f hf).1 (hfne f hf).2)]
      exact h2 d (List.mem_cons_self _ _) f hf
    rw [insertMany, engineInsert_ok_char c d hd1 hcolf]
    dsimp only []
    have ih' := ih
      { uniqueNames := c.uniqueNames, data := c.data ++ [augmentRec d (c.maxId + 1)],
        maxId := c.maxId + 1 }
      hU
      (fun d' hd' => h1 d' (List.mem_cons_of_mem _ hd'))
      (by
        intro d' hd' f hf
        dsimp only []
        rw [collides_append_single]
        rw [h2 d' (List.mem_cons_of_mem _ hd') f hf]
        rw [sharesUnique_congr_right d' _ d f
          (getField_augmentRec_other d (c.maxId + 1) f (hfne f hf).1 (hfne f hf).2)]
        rw [sharesUnique_symm_false d d' f (hpairhead d' hd' f hf)]
        rfl)
      h3tail
    rw [ih']
    rw [augmentSeq]
    have harith : c.maxId + 1 + rest.length = c.maxId + (rest.length + 1) := by omega
    simp [List.append_assoc, harith]

theorem getCollection_addCollection_absent (db : DB) (n : String)
    (unique : List String) (h : getCollection db n = none) :
    getCollection (addCollection db n unique) n
      = some { uniqueNames := unique, data := [], maxId := 0 } := by
  induction db with
  | nil => simp [getCollection, addCollection, List.find?]
  | cons p rest ih =>
    obtain ⟨n0, c0⟩ := p
    by_cases hn : (n0 == n) = true
    · rw [getCollection] at h
      rw [List.find?_cons] at h
      simp only [hn] at h
      cases h
    · rw [getCollection] at h ⊢
      rw [addCollection] at ih ⊢
      rw [List.cons_append, List.find?_cons] at *
      simp only [hn] at *
      rw [getCollection] at ih
      exact ih h

theorem getCollection_setCollection (db : DB) (n : String) (c' : Coll)
    (h : (getCollection db n).isSome) :
    getCollection (setCollection db n c') n = some c' := by
  induction db with
  | nil => cases h
  | cons p rest ih =>
    obtain ⟨n0, c0⟩ := p
    by_cases hn : (n0 == n) = true
    · rw [setCollection, List.map_cons]
      rw [if_pos hn]
      rw [getCollection, List.find?_cons]
      simp
    · rw [getCollection, List.find?_cons] at h
      simp only [hn] at h
      rw [setCollection, List.map_cons, if_neg hn]
      rw [getCollection, List.find?_cons]
      simp only [hn]
      rw [show (List.find? (fun p => p.1 == n) (List.map
        (fun p => if p.1 == n then (n, c') else p) rest)).map (fun p => p.2)
        = getCollection (setCollection rest n c') n from rfl]
      exact ih (by rw [getCollection]; exact h)

/-- C2 (amended): for every existing collection whose storage-stripped
data the collection-level schema accepts *unchanged*, and whose stripped
records are pairwise free of duplicate non-null values at the configured
unique field names (these naming application-level fields, not the
storage-owned two; the database holding a single collection of that
name), `rebuild` succeeds: it removes the collection, recreates it with
exactly the configured unique field names, and re-inserts the
storage-stripped records in their original relative order under fresh
consecutive engine-assigned storage IDs, preserving the record count and
every application-level field value.  (Without the pairwise-free
proviso the claim fails: the engine's duplicate-key rejection aborts the
replay after the old collection is destroyed — see the
counterexample.) -/
theorem C2_rebuild_data_preservation_amended (I : Initr) (db : DB) (c : Coll)
    (hget : getCollection db I.collectionName = some c)
    (hsingle : getCollection (removeCollection db I.collectionName)
      I.collectionName = none)
    (hok : I.collectionSchema (c.data.map stripLokiProperties)
      = .ok (c.data.map stripLokiProperties))
    (hlok : "$loki" ∉ I.uniqueKeys) (hmeta : "meta" ∉ I.uniqueKeys)
    (hpair : noPairCollision I.uniqueKeys (c.data.map stripLokiProperties) = true) :
    (rebuild I db).2 = none ∧
    ∃ c', getCollection (rebuild I db).1 I.collectionName = some c' ∧
      c'.uniqueNames = I.uniqueKeys ∧
      c'.data.map stripLokiProperties = c.data.map stripLokiProperties ∧
      c'.data.length = c.data.length ∧
      (∀ j, j < c'.data.length →
        getField (c'.data.getD j []) "$loki" = some (Value.vnum (Int.ofNat (j + 1)))) := by
  have hempty : getCollection (create I (removeCollection db I.collectionName))
      I.collectionName = some { uniqueNames := I.uniqueKeys, data := [], maxId := 0 } :=
    getCollection_addCollection_absent _ _ _ hsingle
  have hins := insertMany_clean I.uniqueKeys hlok hmeta
    (c.data.map stripLokiProperties)
    { uniqueNames := I.uniqueKeys, data := [], maxId := 0 } rfl
    (by
      intro d hd
      rcases List.mem_map.mp hd with ⟨r, _, hr⟩
      rw [← hr]
      exact getField_strip_loki r)
    (fun d _ f _ => rfl)
    hpair
  rw [rebuild, hget]
  dsimp only []
  rw [hok]
  dsimp only []
  rw [hempty]
  dsimp only []
  rw [hins]
  dsimp only []
  refine ⟨rfl, _, getCollection_setCollection _ _ _ (by rw [hempty]; rfl), rfl, ?_, ?_, ?_⟩
  · dsimp only []
    rw [List.nil_append, augmentSeq_map_strip, List.map_map]
    apply List.map_congr_left
    intro r _
    exact strip_strip r
  · dsimp only []
    rw [List.nil_append, augmentSeq_length, List.length_map]
  · intro j hj
    dsimp only [] at hj ⊢
    rw [List.nil_append] at hj ⊢
    have hj' : j < (c.data.map stripLokiProperties).length := by
      rwa [augmentSeq_length] at hj
    have := augmentSeq_getD_loki (c.data.map stripLokiProperties) 0 j hj'
    simpa using this

def c2WColl : Coll :=
  { uniqueNames := []
    data :=
      [[("name", Value.vstr "john"), ("content", Value.vstr "smith"),
        ("meta", c1Meta), ("$loki", Value.vnum 1)],
       [("name", Value.vstr "julius"), ("content", Value.vstr "caesar"),
        ("meta", c1Meta), ("$loki", Value.vnum 2)]]
    maxId := 2 }

def c2WI : Initr :=
  { collectionName := "TESTS", uniqueKeys := ["name"]
    collectionSchema := anySchemaColl, objectSchema := anySchemaRec }

def c2WDB : DB := [("TESTS", c2WColl)]

/-- Witness for the amended C2 at the spec's P5 scenario: rebuilding the
john/julius collection against unique set `{name}` succeeds and yields a
collection of count 2 with the same application-level field values. -/
theorem C2_rebuild_data_preservation_amended_witness :
    (rebuild c2WI c2WDB).2 = none ∧
    ∃ c', getCollection (rebuild c2WI c2WDB).1 "TESTS" = some c' ∧
      c'.uniqueNames = ["name"] ∧
      c'.data.map stripLokiProperties = c2WColl.data.map stripLokiProperties ∧
      c'.data.length = 2 := by
  have h := C2_rebuild_data_preservation_amended c2WI c2WDB c2WColl rfl rfl rfl
    (by decide) (by decide) (by decide)
  refine ⟨h.1, ?_⟩
  rcases h.2 with ⟨c', h1, h2, h3, h4, _⟩
  exact ⟨c', h1, h2, h3, h4⟩

end LokiHelper
